import Mathlib

/-!
# Otter Browser: bookmarks model, HTML importer and item view

A shallow embedding of `src/core/BookmarksModel.cpp`, of
`src/modules/importers/other/HtmlBookmarksImporter.cpp` and of the row, sort-order and filter
logic of `src/ui/ItemViewWidget.cpp`.

* `BookmarksItem` objects live in a heap addressed by handles (`Nat`); a freed
  object leaves a `none` slot, so a handle is never reused.
* The two static members `m_urls : QHash<QString, QList<BookmarksItem*>>` and
  `m_keywords : QHash<QString, BookmarksItem*>` are association lists with
  unique keys (`QHash`); iteration order of a hash is unspecified in Qt, so
  only lookups are meaningful.
* A `QUrl` is represented by its text `QUrl::toString()`; two URLs are equal
  exactly when their texts are equal, and the empty URL has the empty text.
* Recursion over child rows held as handles (`findUrls`, destruction) is bounded by fuel; the
  DOM tree read by the importer and the item tree read by the filter are inductive trees.
* `int` arithmetic whose overflow matters is checked against the 32-bit range.
-/

namespace Otter

/-! ## QHash -/

/-- A `QHash<QString, V>`: an association list holding each key at most once. -/
abbrev QHash (V : Type) := List (String × V)

namespace QHash

variable {V : Type}

/-- Lookup of the value stored under `key` (`QHash::value`, `operator[]` on a present key). -/
def value? : QHash V → String → Option V
  | [], _ => none
  | (k, v) :: t, key => if k = key then some v else value? t key

/-- Membership test `QHash::contains`. -/
def contains (h : QHash V) (key : String) : Bool := (value? h key).isSome

/-- Removal `QHash::remove`: every entry stored under `key` is dropped. -/
def remove (h : QHash V) (key : String) : QHash V := h.filter (fun e => decide (e.1 ≠ key))

/-- Assignment `h[key] = v`: the entry under `key` is replaced or created. -/
def insert (h : QHash V) (key : String) (v : V) : QHash V := (key, v) :: remove h key

/-- Enumeration `QHash::keys`. -/
def keys (h : QHash V) : List String := h.map Prod.fst

end QHash

/-! ## Items and the program state -/

/-- The enumeration `BookmarkType`. -/
inductive BookmarkType
  | RootBookmark
  | TrashBookmark
  | FolderBookmark
  | UrlBookmark
  | SeparatorBookmark
  deriving DecidableEq, Repr

/-- The enumeration `BookmarksModel::BookmarksRole`. -/
inductive BookmarksRole
  | TitleRole
  | DescriptionRole
  | TypeRole
  | UrlRole
  | KeywordRole
  | TimeAddedRole
  | TimeModifiedRole
  | TimeVisitedRole
  | VisitsRole
  deriving DecidableEq, Repr

/-- The data of one `BookmarksItem` (a `QStandardItem`): the values stored under the roles the
model reads back, the parent link and the ordered child rows. -/
structure BookmarksItem where
  type : BookmarkType
  url : String
  title : String
  description : String
  keyword : String
  parent : Option Nat
  children : List Nat
  deriving DecidableEq, Repr

/-- The whole program state: the heap of items and the two static indexes of `BookmarksItem`. -/
structure State where
  heap : List (Option BookmarksItem)
  m_urls : QHash (List Nat)
  m_keywords : QHash Nat
  deriving DecidableEq, Repr

namespace State

/-- The state at program start: no item, both indexes empty. -/
def init : State := { heap := [], m_urls := [], m_keywords := [] }

/-- The live item behind handle `n`, or `none` when `n` was never allocated or is destroyed. -/
def item? (s : State) (n : Nat) : Option BookmarksItem := (s.heap[n]?).join

/-- Overwrite the heap slot `n`. -/
def store (s : State) (n : Nat) (x : Option BookmarksItem) : State :=
  { s with heap := s.heap.set n x }

end State

/-- The statements `m_urls[url].removeAll(this); if (m_urls[url].isEmpty()) m_urls.remove(url);`
found in the destructor and in `setData`. -/
def removeAllFrom (urls : QHash (List Nat)) (url : String) (self : Nat) : QHash (List Nat) :=
  let bucket := ((urls.value? url).getD []).filter (fun m => decide (m ≠ self))
  if bucket.isEmpty then urls.remove url else urls.insert url bucket

/-- The guarded removal shared by the destructor (`if (!url.isEmpty()) { if (m_urls.contains(url))
{ ... } }`) and by `setData` (`if (!oldUrl.isEmpty() && m_urls.contains(oldUrl)) { ... }`). -/
def unregisterUrl (urls : QHash (List Nat)) (url : String) (self : Nat) : QHash (List Nat) :=
  if url ≠ "" then
    if urls.contains url then removeAllFrom urls url self else urls
  else urls

/-- The statements `if (!m_urls.contains(newUrl)) m_urls[newUrl] = QList();
m_urls[newUrl].append(this);`. -/
def appendTo (urls : QHash (List Nat)) (newUrl : String) (self : Nat) : QHash (List Nat) :=
  let urls1 := if urls.contains newUrl then urls else urls.insert newUrl []
  urls1.insert newUrl (((urls1.value? newUrl).getD []) ++ [self])

/-- The guarded registration `if (!newUrl.isEmpty()) { ... }` of `setData`. -/
def registerUrl (urls : QHash (List Nat)) (newUrl : String) (self : Nat) : QHash (List Nat) :=
  if newUrl ≠ "" then appendTo urls newUrl self else urls

/-- The base-class call `QStandardItem::setData(value, role)`: the value is stored under the role.
The kind is stored when the item is constructed; a later write under `TypeRole` (the sources make
none) and the writes under the time and visit roles are not tracked. -/
def BookmarksItem.write (it : BookmarksItem) (value : String) : BookmarksRole → BookmarksItem
  | .UrlRole => { it with url := value }
  | .KeywordRole => { it with keyword := value }
  | .TitleRole => { it with title := value }
  | .DescriptionRole => { it with description := value }
  | _ => it

/-- The method `BookmarksItem::setData(value, role)` on the item behind handle `self`. A call on a handle
that is not live cannot happen in the program and leaves the state as it is. -/
def setData (s : State) (self : Nat) (value : String) (role : BookmarksRole) : State :=
  match s.item? self with
  | none => s
  | some it =>
    let s1 : State :=
      if role = .UrlRole ∧ value ≠ it.url then
        let oldUrl := it.url
        let newUrl := value
        { s with m_urls := registerUrl (unregisterUrl s.m_urls oldUrl self) newUrl self }
      else if role = .KeywordRole ∧ value ≠ it.keyword then
        let oldKeyword := it.keyword
        let newKeyword := value
        let kw1 := if oldKeyword ≠ "" ∧ s.m_keywords.contains oldKeyword = true
          then s.m_keywords.remove oldKeyword else s.m_keywords
        let kw2 := if newKeyword ≠ "" then kw1.insert newKeyword self else kw1
        { s with m_keywords := kw2 }
      else s
    s1.store self (some (it.write value role))

/-- The constructor `BookmarksItem::BookmarksItem(type, url, title)`: a fresh detached item is
allocated, then `setData` is called for the type (no index effect; stored at allocation), the
URL and the title. The new handle is returned with the state. -/
def createNode (s : State) (type : BookmarkType) (url title : String) : State × Nat :=
  let self := s.heap.length
  let blank : BookmarksItem :=
    { type := type, url := "", title := "", description := "", keyword := "",
      parent := none, children := [] }
  let s0 : State := { s with heap := s.heap ++ [some blank] }
  let s1 := setData s0 self url .UrlRole
  let s2 := setData s1 self title .TitleRole
  (s2, self)

/-- The body of the destructor `BookmarksItem::~BookmarksItem()` run on the live item `it`
behind `self`, followed by the release of the object. -/
def destructor (s : State) (self : Nat) (it : BookmarksItem) : State :=
  let urls := unregisterUrl s.m_urls it.url self
  let kws :=
    if it.keyword ≠ "" ∧ s.m_keywords.contains it.url = true
    then s.m_keywords.remove it.url else s.m_keywords
  { heap := s.heap.set self none, m_urls := urls, m_keywords := kws }

/-- Deletion of the items on a worklist: the destructor body of an item runs first, then the
base-class destructor deletes its child rows in order (so the children are put in front of the
remaining work). Every step takes one unit of `fuel`. -/
def destroyItems : Nat → List Nat → State → State
  | 0, _, s => s
  | _ + 1, [], s => s
  | fuel + 1, n :: rest, s =>
    match s.item? n with
    | none => destroyItems fuel rest s
    | some it => destroyItems fuel (it.children ++ rest) (destructor s n it)

/-- The number of child rows held by the live items of a heap. -/
def childCount : List (Option BookmarksItem) → Nat
  | [] => 0
  | none :: t => childCount t
  | some it :: t => it.children.length + childCount t

/-- Removal of row `n` from the child rows of its parent, when it has one. -/
def detach (s : State) (n : Nat) (it : BookmarksItem) : State :=
  match it.parent with
  | none => s
  | some p =>
    match s.item? p with
    | none => s
    | some pit => s.store p (some { pit with children := pit.children.erase n })

/-- Destruction of the live item `n` with its whole subtree: the row is taken out of its parent
and the item and all its descendants are deleted. Every deletion step either consumes a worklist
entry or turns the child rows of one live item into worklist entries, so `1 + childCount` units of
fuel cover all of them (`destroyItems_fuel_stable`). -/
def destroyNode (s : State) (n : Nat) : State :=
  match s.item? n with
  | none => s
  | some it =>
    let s1 := detach s n it
    destroyItems (1 + childCount s1.heap) [n] s1

/-- The call `QStandardItem::appendRow(child)` on `parent`: a live detached item becomes the last row
of a live item; any other call is ignored. -/
def appendRow (s : State) (parent child : Nat) : State :=
  match s.item? parent, s.item? child with
  | some pit, some cit =>
    if cit.parent = none ∧ parent ≠ child then
      (s.store parent (some { pit with children := pit.children ++ [child] })).store child
        (some { cit with parent := some parent })
    else s
  | _, _ => s

/-! ## Queries -/

/-- The lookup `BookmarksItem::getBookmarks(url)` (`findNodesByUrl`): the bucket of `url`, empty when `url` is no key. -/
def getBookmarks (s : State) (url : String) : List Nat :=
  if s.m_urls.contains url then (s.m_urls.value? url).getD [] else []

/-- The lookup `BookmarksItem::getBookmark(keyword)` (`findNodeByKeyword`): the item mapped to `keyword`, `none` for `NULL`. -/
def getBookmark (s : State) (keyword : String) : Option Nat :=
  if s.m_keywords.contains keyword then s.m_keywords.value? keyword else none

/-- The test `BookmarksItem::hasKeyword(keyword)`. -/
def hasKeyword (s : State) (keyword : String) : Bool := s.m_keywords.contains keyword

/-- The test `BookmarksItem::hasUrl(url)`. -/
def hasUrl (s : State) (url : String) : Bool := s.m_urls.contains url

/-- The enumeration `BookmarksItem::getKeywords()`. -/
def getKeywords (s : State) : List String := s.m_keywords.keys

/-- The enumeration `BookmarksItem::getUrls()`. -/
def getUrls (s : State) : List String := s.m_urls.keys

/-! ## The operations of the specification -/

/-- The operation `setUrl(node, newUrl)` is `setData(newUrl, UrlRole)`. -/
def setUrl (s : State) (n : Nat) (newUrl : String) : State := setData s n newUrl .UrlRole

/-- The operation `setKeyword(node, newKeyword)` is `setData(newKeyword, KeywordRole)`. -/
def setKeyword (s : State) (n : Nat) (newKeyword : String) : State :=
  setData s n newKeyword .KeywordRole

/-- The states the program can be in: those built from the initial state by constructing items,
calling `setData`, appending rows and destroying items. -/
inductive Reachable : State → Prop
  | start : Reachable State.init
  | create {s : State} (type : BookmarkType) (url title : String) :
      Reachable s → Reachable (createNode s type url title).1
  | set {s : State} (n : Nat) (value : String) (role : BookmarksRole) :
      Reachable s → Reachable (setData s n value role)
  | append {s : State} (parent child : Nat) : Reachable s → Reachable (appendRow s parent child)
  | destroy {s : State} (n : Nat) : Reachable s → Reachable (destroyNode s n)

/-! ## Definitions used by the statements and proofs -/

/-- The bucket stored under `u`, empty when `u` is no key. -/
def bucket (urls : QHash (List Nat)) (u : String) : List Nat := (urls.value? u).getD []

/-- No key of the hash holds an empty bucket. -/
def NoEmptyBucket (urls : QHash (List Nat)) : Prop := ∀ u, urls.value? u ≠ some []

/-- The URL index `urls` agrees with the assignment `f` of URL texts to live handles: a bucket
holds exactly the handles that are assigned its non-empty key, each once, and no bucket is empty. -/
structure IndexOk (urls : QHash (List Nat)) (f : Nat → Option String) : Prop where
  mem_iff : ∀ u n, n ∈ bucket urls u ↔ u ≠ "" ∧ f n = some u
  nodup : ∀ u, (bucket urls u).Nodup
  noEmpty : NoEmptyBucket urls

/-- The URL text held by the live item behind a handle. -/
def urlOf (s : State) (n : Nat) : Option String := (s.item? n).map (fun it => it.url)

/-- The URL index of a state agrees with the URLs held by its live items. -/
def UrlInv (s : State) : Prop := IndexOk s.m_urls (urlOf s)

/-- The state after `new BookmarksItem(FolderBookmark, QUrl(), "F")` at program start. -/
def stateFolderOnly : State := (createNode State.init .FolderBookmark "" "F").1

/-- The state after `new BookmarksItem(UrlBookmark, QUrl("http://a"), "A")` at program start. -/
def stateOneUrl : State := (createNode State.init .UrlBookmark "http://a" "A").1

/-- The state after constructing the bookmarks `0` and `1`, both with URL `http://a`. -/
def stateTwoUrls : State := (createNode stateOneUrl .UrlBookmark "http://a" "B").1

/-- The state after constructing the bookmarks `0` (`http://a`) and `1` (`http://b`). -/
def stateTwoNodes : State := (createNode stateOneUrl .UrlBookmark "http://b" "B").1

/-- The state after `setKeyword(0, "k")` on the single bookmark `0` (`http://a`). -/
def stateKeyword : State := setKeyword stateOneUrl 0 "k"

/-- The state with the folder `0` holding as its only row the bookmark `1` (`http://a`, keyword
`k`). -/
def stateFolderTree : State :=
  appendRow (setKeyword (createNode stateFolderOnly .UrlBookmark "http://a" "A").1 1 "k") 0 1

/-- The state in which bookmark `0` still has the keyword field `k` while the keyword index maps
`k` to bookmark `1`: `setKeyword(0, "k")` then `setKeyword(1, "k")`. -/
def stateStaleKeyword : State := setKeyword (setKeyword stateTwoNodes 0 "k") 1 "k"

/-! ## Definitions for the tree search -/

/-- The loop body of `BookmarksModel::findUrls` over the child rows of a branch: a null row is
skipped, a `FolderBookmark` row contributes the result of the recursive call `visit`, a
`UrlBookmark` row whose URL text equals `url` contributes itself. The result is `none` when a
recursive call did not return. -/
def collectUrls (visit : Nat → Option (List Nat)) (s : State) (url : String) :
    List Nat → Option (List Nat)
  | [] => some []
  | item :: rest =>
    match s.item? item with
    | none => collectUrls visit s url rest
    | some it =>
      if it.type = .FolderBookmark then
        match visit item, collectUrls visit s url rest with
        | some found, some items => some (found ++ items)
        | _, _ => none
      else if it.type = .UrlBookmark ∧ it.url = url then
        (collectUrls visit s url rest).map (fun items => item :: items)
      else collectUrls visit s url rest

/-- The method `BookmarksModel::findUrls(url, branch)`; `root` is the handle of `item(0, 0)`, the
branch taken when `branch` is `NULL` (`none`). The recursion depth is bounded by `fuel`; `none`
means the fuel ran out. -/
def findUrls : Nat → State → Nat → String → Option Nat → Option (List Nat)
  | 0, _, _, _, _ => none
  | fuel + 1, s, root, url, branch =>
    match s.item? (branch.getD root) with
    | none => some []
    | some it => collectUrls (fun item => findUrls fuel s root url (some item)) s url it.children

/-- The nodes met when the child rows `rows` are walked in stored order, depth first, each row
before the rows below it, going below a row only when it is of Folder kind (`below` lists what is
below a row). -/
def walkRows (below : Nat → Option (List Nat)) (s : State) : List Nat → Option (List Nat)
  | [] => some []
  | item :: rest =>
    match s.item? item with
    | none => walkRows below s rest
    | some it =>
      match (if it.type = .FolderBookmark then below item else some []),
        walkRows below s rest with
      | some sub, some items => some (item :: sub ++ items)
      | _, _ => none

/-- The pre-order enumeration of the nodes reachable from `start` by descending only through
Folder-kind children, children in stored order. -/
def folderDescendants : Nat → State → Nat → Option (List Nat)
  | 0, _, _ => none
  | fuel + 1, s, start =>
    match s.item? start with
    | none => some []
    | some it => walkRows (fun item => folderDescendants fuel s item) s it.children

/-- A node is of Url kind and its URL text is `url`. -/
def isUrlNode (s : State) (url : String) (n : Nat) : Bool :=
  match s.item? n with
  | none => false
  | some it => decide (it.type = .UrlBookmark ∧ it.url = url)

/-- The reference result of `findDescendantsByUrl(url, start)` in the words of the specification:
the Url-kind nodes with URL `url` among the pre-order enumeration of the nodes reachable from
`start` (the Root when absent) through Folder-kind children. -/
def findDescendantsByUrlRef (fuel : Nat) (s : State) (root : Nat) (url : String)
    (start : Option Nat) : Option (List Nat) :=
  (folderDescendants fuel s (start.getD root)).map (fun l => l.filter (isUrlNode s url))

/-- The check that `rank` decreases from every live item to each of its live Folder-kind child
rows: the child rows form a tree of finite depth. -/
def rankedTree (s : State) (rank : Nat → Nat) : Bool :=
  (List.range s.heap.length).all fun p =>
    match s.item? p with
    | none => true
    | some pit =>
      pit.children.all fun c =>
        match s.item? c with
        | none => true
        | some cit => decide (cit.type = .FolderBookmark → rank c < rank p)

/-- The tree `Root -> [FolderA -> [Url("https://x"), Url("https://y")], Url("https://x")]` of the
specification: Root is `0`, FolderA is `1`, its rows are `2` and `3`, the last row of Root is `4`. -/
def stateExampleTree : State :=
  appendRow (appendRow (appendRow (appendRow
    (createNode (createNode (createNode (createNode (createNode State.init
      .RootBookmark "" "Bookmarks").1 .FolderBookmark "" "FolderA").1
      .UrlBookmark "https://x" "x1").1 .UrlBookmark "https://y" "y").1
      .UrlBookmark "https://x" "x2").1 0 1) 1 2) 1 3) 0 4

/-- The rank used for `stateExampleTree`: Root above FolderA above the bookmarks. -/
def rankExampleTree (n : Nat) : Nat := if n = 0 then 2 else if n = 1 then 1 else 0

/-- The state with the Root `0` holding as its only row the Url-kind bookmark `1`, whose URL is
empty. -/
def stateEmptyUrlTree : State :=
  appendRow (createNode (createNode State.init .RootBookmark "" "Bookmarks").1
    .UrlBookmark "" "no address").1 0 1

/-- The state after `new BookmarksItem(FolderBookmark, QUrl("http://a"), "F")` at program start. -/
def stateFolderWithUrl : State := (createNode State.init .FolderBookmark "http://a" "F").1

/-- The item as allocated by the constructor, before its `setData` calls. -/
def blankItem (type : BookmarkType) : BookmarksItem :=
  { type := type, url := "", title := "", description := "", keyword := "",
    parent := none, children := [] }

/-! ## Definitions for the HTML bookmarks importer -/

/-- The data of one `QWebElement` read by `HtmlBookmarksImporter::processElement`: the tag name in
lower case (the importer compares `tagName().toLower()`), the attributes, the plain text, and the
plain text of the element after the parent when that is a `dd` element (the description of a
bookmark). -/
structure ElementData where
  tagName : String
  attributes : List (String × String)
  plainText : String
  description : Option String
  deriving Repr

/-- A `QWebElement` with its child elements in document order. -/
inductive QWebElement where
  | mk (data : ElementData) (children : List QWebElement)

/-- The call `QWebElement::attribute(name)` : the value of the attribute, empty when it is absent. -/
def ElementData.attribute (e : ElementData) (name : String) : String :=
  match e.attributes.find? (fun a => decide (a.1 = name)) with
  | some a => a.2
  | none => ""

/-- The members of the base class `BookmarksImporter` used by the HTML importer, with the bookmarks
state they act on. -/
structure Importer where
  bookmarks : State
  currentFolder : Nat
  importFolder : Nat
  allowDuplicates : Bool
  deriving Repr

/-- The test `BookmarksItem::hasBookmark(url)`, `m_urls.contains(QUrl(url).toString())`; `toUrl`
is the conversion `QUrl(url).toString()` of an attribute text to the canonical URL text. -/
def hasBookmark (toUrl : String → String) (s : State) (url : String) : Bool :=
  s.m_urls.contains (toUrl url)

/-- Modelled from the spec: `BookmarksManager::hasKeyword` is not among the sources; the
specification describes the check of the importer as the existence check `hasKeyword` on the
keyword index, so the call forwards to `BookmarksItem::hasKeyword`. -/
def BookmarksManager.hasKeyword (s : State) (keyword : String) : Bool :=
  Otter.hasKeyword s keyword

/-- Modelled from the spec: `BookmarksManager::hasBookmark` is not among the sources; it is the
existence check on the URL index and forwards to `BookmarksItem::hasBookmark`. -/
def BookmarksManager.hasBookmark (toUrl : String → String) (s : State) (url : String) : Bool :=
  Otter.hasBookmark toUrl s url

/-- Modelled from the spec: `BookmarksImporter::goToParent` is not among the sources; it is the
`close folder()` event, after which rows are appended to the parent of the folder left. The
bookmarks state is not touched. -/
def Importer.goToParent (st : Importer) : Importer :=
  match st.bookmarks.item? st.currentFolder with
  | none => st
  | some it =>
    match it.parent with
    | none => st
    | some p => { st with currentFolder := p }

/-- The part of `HtmlBookmarksImporter::processElement` before the loop over the child elements:
the branches for `h3`, `a` and `hr` elements. The result is `none` when the function returns early
(a duplicate bookmark that is not allowed). -/
def importElement (toUrl : String → String) (st : Importer) (element : ElementData) :
    Option Importer :=
  if element.tagName = "h3" then
    let created := createNode st.bookmarks .FolderBookmark "" element.plainText
    let bookmark := created.2
    let keyword := element.attribute "SHORTCUTURL"
    let s1 := if !BookmarksManager.hasKeyword created.1 keyword
      then setData created.1 bookmark keyword .KeywordRole else created.1
    let s2 := if element.attribute "ADD_DATE" ≠ ""
      then setData (setData s1 bookmark (element.attribute "ADD_DATE") .TimeAddedRole) bookmark
        (element.attribute "ADD_DATE") .TimeModifiedRole
      else s1
    some { st with bookmarks := appendRow s2 st.currentFolder bookmark, currentFolder := bookmark }
  else if element.tagName = "a" then
    let url := element.attribute "href"
    if !st.allowDuplicates && BookmarksManager.hasBookmark toUrl st.bookmarks url then none
    else
      let created := createNode st.bookmarks .UrlBookmark (toUrl url) element.plainText
      let bookmark := created.2
      let keyword := element.attribute "SHORTCUTURL"
      let s1 := if !BookmarksManager.hasKeyword created.1 keyword
        then setData created.1 bookmark keyword .KeywordRole else created.1
      let s2 := match element.description with
        | some text => setData s1 bookmark text .DescriptionRole
        | none => s1
      let s3 := if element.attribute "ADD_DATE" ≠ ""
        then setData s2 bookmark (element.attribute "ADD_DATE") .TimeAddedRole else s2
      let s4 := if element.attribute "LAST_MODIFIED" ≠ ""
        then setData s3 bookmark (element.attribute "LAST_MODIFIED") .TimeModifiedRole else s3
      let s5 := if element.attribute "LAST_VISITED" ≠ ""
        then setData s4 bookmark (element.attribute "LAST_VISITED") .TimeVisitedRole else s4
      some { st with bookmarks := appendRow s5 st.currentFolder bookmark }
  else if element.tagName = "hr" then
    let created := createNode st.bookmarks .SeparatorBookmark "" ""
    some { st with bookmarks := appendRow created.1 st.currentFolder created.2 }
  else some st

mutual
/-- The method `HtmlBookmarksImporter::processElement(element)`: the element itself is imported,
then its child elements are processed in document order, then a `dl` element closes the folder. -/
def processElement (toUrl : String → String) (st : Importer) : QWebElement → Importer
  | .mk element children =>
    match importElement toUrl st element with
    | none => st
    | some st1 =>
      let st2 := processElements toUrl st1 children
      if element.tagName = "dl" then st2.goToParent else st2
/-- The loop of `processElement` over the direct child elements. -/
def processElements (toUrl : String → String) (st : Importer) : List QWebElement → Importer
  | [] => st
  | element :: rest => processElements toUrl (processElement toUrl st element) rest
end

/-- Every live item with a non-empty keyword is the item the keyword index maps that keyword to
(so no two live items share a non-empty keyword). -/
def KeywordsIndexed (s : State) : Prop :=
  ∀ n it, s.item? n = some it → it.keyword ≠ "" → getBookmark s it.keyword = some n

/-- The child elements of the document body
`<dl><h3 SHORTCUTURL="k">F</h3><dl><a href="http://a" SHORTCUTURL="k">A</a>
<a href="http://a" SHORTCUTURL="j">B</a><hr></dl></dl>`. -/
def documentRows : List QWebElement :=
  [.mk { tagName := "h3", attributes := [("SHORTCUTURL", "k")], plainText := "F",
         description := none } [],
   .mk { tagName := "dl", attributes := [], plainText := "", description := none }
     [.mk { tagName := "a", attributes := [("href", "http://a"), ("SHORTCUTURL", "k")],
            plainText := "A", description := none } [],
      .mk { tagName := "a", attributes := [("href", "http://a"), ("SHORTCUTURL", "j")],
            plainText := "B", description := some "second" } [],
      .mk { tagName := "hr", attributes := [], plainText := "", description := none } []]]

/-- The outer `dl` element of the example document. -/
def documentList : ElementData :=
  { tagName := "dl", attributes := [], plainText := "", description := none }

/-- The keyword held by the live item behind a handle. -/
def keywordOf (s : State) (n : Nat) : Option String := (s.item? n).map (fun it => it.keyword)

/-- The second state keeps the keyword index and the keyword of every item of the first. -/
def KeywordsSame (s t : State) : Prop :=
  t.m_keywords = s.m_keywords ∧ ∀ n, keywordOf t n = keywordOf s n

/-- The second state keeps every item of the first live with its keyword, keeps the mapping of
every keyword that is a key in the first, and keeps the keywords indexed if they were. -/
def KeywordsKept (s t : State) : Prop :=
  (∀ n it, s.item? n = some it → ∃ it', t.item? n = some it' ∧ it'.keyword = it.keyword) ∧
  (∀ k, hasKeyword s k = true → t.m_keywords.value? k = s.m_keywords.value? k) ∧
  (KeywordsIndexed s → KeywordsIndexed t)

/-- With duplicates disallowed, the second importer state has every bucket that was non-empty in
the first exactly as it was; the duplicates option is the same. -/
def BucketsKept (st st' : Importer) : Prop :=
  st'.allowDuplicates = st.allowDuplicates ∧
  (st.allowDuplicates = false → ∀ u, getBookmarks st.bookmarks u ≠ [] →
    getBookmarks st'.bookmarks u = getBookmarks st.bookmarks u)

/-- The executable check of `KeywordsIndexed` over the handles of the heap. -/
def keywordsIndexedCheck (s : State) : Bool :=
  (List.range s.heap.length).all fun n =>
    match s.item? n with
    | none => true
    | some it => decide (it.keyword = "") || decide (getBookmark s it.keyword = some n)

/-- An importer whose bookmarks are the Root `0` and the bookmark `1` (`http://a`, keyword `k`)
under it; duplicates are not allowed. -/
def importerWithKeyword : Importer :=
  { bookmarks := appendRow (setKeyword (createNode (createNode State.init
      .RootBookmark "" "Bookmarks").1 .UrlBookmark "http://a" "A").1 1 "k") 0 1,
    currentFolder := 0, importFolder := 0, allowDuplicates := false }

/-- The element `<a href="http://b" SHORTCUTURL="k">B</a>`. -/
def anchorSameKeyword : ElementData :=
  { tagName := "a", attributes := [("href", "http://b"), ("SHORTCUTURL", "k")],
    plainText := "B", description := none }

/-- The element `<a href="http://a" SHORTCUTURL="j">A again</a>`. -/
def anchorSameUrl : ElementData :=
  { tagName := "a", attributes := [("href", "http://a"), ("SHORTCUTURL", "j")],
    plainText := "A again", description := none }

/-! ## Definitions for the view widget: rows and sort order -/

/-- The part of an `ItemViewWidget` that `moveRow` works on: the top-level rows of `m_model` (`none`
when no model is set), the row of `currentIndex()` and the flag `m_isModified`. -/
structure ItemViewWidget (α : Type) where
  m_model : Option (List α)
  currentRow : Int
  m_isModified : Bool

/-- The call `QStandardItemModel::takeRow(row)` : the row is removed and returned; a row out of
range gives an empty row (`default`) and changes nothing. -/
def takeRow {α : Type} [Inhabited α] (rows : List α) (row : Int) : α × List α :=
  if 0 ≤ row ∧ row < rows.length then (rows.getD row.toNat default, rows.eraseIdx row.toNat)
  else (default, rows)

/-- Insertion of `x` before position `n` of a list. -/
def insertAt {α : Type} : List α → Nat → α → List α
  | l, 0, x => x :: l
  | [], _ + 1, x => [x]
  | y :: l, n + 1, x => y :: insertAt l n x

/-- The call `QStandardItemModel::insertRow(row, items)` : the row is inserted before position
`row`; a position out of range is refused. -/
def insertRow {α : Type} (rows : List α) (row : Int) (items : α) : List α :=
  if 0 ≤ row ∧ row ≤ rows.length then insertAt rows row.toNat items else rows

/-- The method `ItemViewWidget::moveRow(up)`. -/
def moveRow {α : Type} [Inhabited α] (w : ItemViewWidget α) (up : Bool) : ItemViewWidget α :=
  match w.m_model with
  | none => w
  | some rows =>
    let sourceRow := w.currentRow
    let destinationRow := if up then sourceRow - 1 else sourceRow + 1
    if (up = true ∧ sourceRow > 0) ∨ (up = false ∧ sourceRow < (rows.length : Int) - 1) then
      let taken := takeRow rows destinationRow
      { m_model := some (insertRow taken.2 sourceRow taken.1), currentRow := destinationRow,
        m_isModified := true }
    else w

/-- The enumeration `Qt::SortOrder`. -/
inductive SortOrder
  | AscendingOrder
  | DescendingOrder
  deriving DecidableEq, Repr

/-- The value of an `int` expression: `none` when the mathematical result is outside the 32-bit
range (signed overflow, for which C++ defines no result). -/
def checkedInt (x : Int) : Option Int :=
  if -2147483648 ≤ x ∧ x ≤ 2147483647 then some x else none

/-- The value `((m_sortColumn + 1) * ((m_sortOrder == Qt::AscendingOrder) ? 1 : -1))` that
`ItemViewWidget::saveState` stores under the key `order`. -/
def saveStateOrder (m_sortColumn : Int) (m_sortOrder : SortOrder) : Option Int :=
  (checkedInt (m_sortColumn + 1)).bind fun column =>
    checkedInt (column * (if m_sortOrder = .AscendingOrder then 1 else -1))

/-- The function `qAbs` on `int`. -/
def qAbs (t : Int) : Option Int := checkedInt (if t ≥ 0 then t else -t)

/-- The arguments `(qAbs(order) - 1)` and `((order > 0) ? Qt::AscendingOrder :
Qt::DescendingOrder)` that `ItemViewWidget::showEvent` passes to `setSorting` for the stored
value `order`. -/
def showEventSorting (order : Int) : Option (Int × SortOrder) :=
  (qAbs order).bind fun a =>
    (checkedInt (a - 1)).map fun column =>
      (column, if order > 0 then SortOrder.AscendingOrder else SortOrder.DescendingOrder)

/-! ## Definitions for the filter of the view widget -/

/-- A `QStandardItem` of the model of a view as `applyFilter` reads it: an identifier for its row,
the flag `Qt::ItemNeverHasChildren`, for every non-null item of its row the texts
`data(role).toString()` of the roles in `m_filterRoles`, and its non-null child rows in column
`0`. -/
inductive ViewItem where
  | mk (row : Nat) (neverHasChildren : Bool) (cells : List (List String))
      (children : List ViewItem)

/-- The identifier of the row of an item. -/
def ViewItem.row : ViewItem → Nat
  | .mk row _ _ _ => row

/-- The flag `Qt::ItemNeverHasChildren` of an item. -/
def ViewItem.neverHasChildren : ViewItem → Bool
  | .mk _ never _ _ => never

/-- The texts of the filter roles in the columns of the row of an item. -/
def ViewItem.cells : ViewItem → List (List String)
  | .mk _ _ cells _ => cells

/-- The child rows of an item. -/
def ViewItem.children : ViewItem → List ViewItem
  | .mk _ _ _ children => children

mutual
/-- The method `ItemViewWidget::applyFilter(item)` for the filter string `m_filterString`;
`contains text filter` is `text.contains(filter, Qt::CaseInsensitive)`. The result is the returned
`hasFound` with the calls `setRowHidden(row, parent, hide)` in the order they are made. The
bookkeeping of expanded branches has no influence on either and is left out. -/
def applyFilter (contains : String → String → Bool) (m_filterString : String) :
    ViewItem → Bool × List (Nat × Bool)
  | .mk row neverHasChildren cells children =>
    let isFolder := !neverHasChildren
    let found : Bool × List (Nat × Bool) :=
      if isFolder then
        let below := applyFilterRows contains m_filterString children
        (decide (m_filterString = "") || below.1, below.2)
      else
        (decide (m_filterString = "") ||
          cells.any (fun roles => roles.any (fun text => contains text m_filterString)), [])
    (found.1, found.2 ++ [(row, !found.1)])
/-- The loop `for (int i = 0; i < item->rowCount(); ++i)` of `applyFilter` over the child rows:
whether some child returned true, with the calls made below. -/
def applyFilterRows (contains : String → String → Bool) (m_filterString : String) :
    List ViewItem → Bool × List (Nat × Bool)
  | [] => (false, [])
  | child :: rest =>
    let first := applyFilter contains m_filterString child
    let others := applyFilterRows contains m_filterString rest
    (first.1 || others.1, first.2 ++ others.2)
end

mutual
/-- The items visited by `applyFilter(item)` in the order their rows are shown or hidden: the
items below a folder first, then the item itself; nothing below an item that never has children. -/
def visitedItems : ViewItem → List ViewItem
  | .mk row neverHasChildren cells children =>
    (if neverHasChildren then [] else visitedRows children)
      ++ [.mk row neverHasChildren cells children]
/-- The items visited for a list of child rows. -/
def visitedRows : List ViewItem → List ViewItem
  | [] => []
  | child :: rest => visitedItems child ++ visitedRows rest
end

/-- A simple stand-in for `QString::contains(filter, Qt::CaseInsensitive)` on lower-case texts:
the filter is an infix of the text. -/
def containsText (text filter : String) : Bool := decide (filter.data <:+: text.data)

/-- The tree `folder 0 -> [leaf 1 "alpha", folder 2 -> [leaf 3 "beta"], leaf 4 "gamma"]`. -/
def viewExample : ViewItem :=
  .mk 0 false [] [.mk 1 true [["alpha"]] [], .mk 2 false [] [.mk 3 true [["beta"]] []],
    .mk 4 true [["gamma", "x"]] []]

/-! ## Lookup lemmas for `QHash` -/

namespace QHash

variable {V : Type}

theorem value?_remove_self (h : QHash V) (k : String) : value? (remove h k) k = none := by
  induction h with
  | nil => rfl
  | cons e t ih =>
    obtain ⟨k', v⟩ := e
    by_cases hk : k' = k
    · simpa [remove, hk] using ih
    · simpa [remove, hk, value?] using ih

theorem value?_remove_ne (h : QHash V) {k k' : String} (hne : k' ≠ k) :
    value? (remove h k) k' = value? h k' := by
  induction h with
  | nil => rfl
  | cons e t ih =>
    obtain ⟨k0, v⟩ := e
    have ih' : value? (List.filter (fun e => decide (e.1 ≠ k)) t) k' = value? t k' := ih
    by_cases hk : k0 = k
    · have h0 : k0 ≠ k' := fun h => hne (h ▸ hk)
      simp only [remove, List.filter_cons, hk, ne_eq, not_true_eq_false, decide_False,
        Bool.false_eq_true, if_false, value?]
      rw [← hk, if_neg h0, hk]
      exact ih'
    · simp only [remove, List.filter_cons, hk, ne_eq, not_false_eq_true, decide_True, if_true,
        value?]
      by_cases h1 : k0 = k'
      · simp [h1]
      · simp only [h1, if_false]
        exact ih'

theorem value?_insert_self (h : QHash V) (k : String) (v : V) :
    value? (insert h k v) k = some v := by
  simp [insert, value?]

theorem value?_insert_ne (h : QHash V) {k k' : String} (v : V) (hne : k' ≠ k) :
    value? (insert h k v) k' = value? h k' := by
  have h0 : k ≠ k' := fun h => hne h.symm
  simp [insert, value?, h0, value?_remove_ne h hne]

end QHash

theorem getBookmarks_eq (s : State) (u : String) : getBookmarks s u = bucket s.m_urls u := by
  unfold getBookmarks bucket
  by_cases h : s.m_urls.contains u = true
  · simp [h]
  · have h1 : s.m_urls.value? u = none := by
      simpa [QHash.contains] using h
    simp [h, h1]

theorem value?_removeAllFrom_ne (urls : QHash (List Nat)) {url u : String} (self : Nat)
    (hne : u ≠ url) : (removeAllFrom urls url self).value? u = urls.value? u := by
  unfold removeAllFrom
  simp only []
  split
  · exact QHash.value?_remove_ne _ hne
  · exact QHash.value?_insert_ne _ _ hne

theorem bucket_removeAllFrom_self (urls : QHash (List Nat)) (url : String) (self : Nat) :
    bucket (removeAllFrom urls url self) url
      = (bucket urls url).filter (fun m => decide (m ≠ self)) := by
  unfold removeAllFrom
  by_cases he : (List.filter (fun m => decide (m ≠ self)) ((urls.value? url).getD [])).isEmpty
      = true
  · simp only [he, if_true]
    rw [List.isEmpty_iff] at he
    simp only [bucket, QHash.value?_remove_self, he]
    rfl
  · simp only [he]
    simp [bucket, QHash.value?_insert_self]

theorem value?_removeAllFrom_self_ne_nil (urls : QHash (List Nat)) (url : String) (self : Nat) :
    (removeAllFrom urls url self).value? url ≠ some [] := by
  unfold removeAllFrom
  by_cases he : (List.filter (fun m => decide (m ≠ self)) ((urls.value? url).getD [])).isEmpty
      = true
  · simp only [he, if_true, QHash.value?_remove_self]
    simp
  · simp only [he, Bool.false_eq_true, if_false]
    rw [QHash.value?_insert_self]
    intro hh
    apply he
    rw [List.isEmpty_iff]
    exact Option.some.inj hh

theorem bucket_unregisterUrl (urls : QHash (List Nat)) (url u : String) (self : Nat) :
    bucket (unregisterUrl urls url self) u
      = if u = url ∧ url ≠ "" then (bucket urls url).filter (fun m => decide (m ≠ self))
        else bucket urls u := by
  unfold unregisterUrl
  by_cases h0 : url = ""
  · simp [h0]
  · by_cases hc : urls.contains url = true
    · simp only [ne_eq, h0, not_false_eq_true, if_true, hc, and_true]
      by_cases hu : u = url
      · subst hu
        simp [bucket_removeAllFrom_self]
      · simp [hu, bucket, value?_removeAllFrom_ne urls self hu]
    · have h1 : urls.value? url = none := by simpa [QHash.contains] using hc
      simp only [ne_eq, h0, not_false_eq_true, if_true, hc, Bool.false_eq_true, if_false, and_true]
      by_cases hu : u = url
      · subst hu
        simp [bucket, h1]
      · simp [hu]

theorem noEmptyBucket_unregisterUrl {urls : QHash (List Nat)} (h : NoEmptyBucket urls)
    (url : String) (self : Nat) : NoEmptyBucket (unregisterUrl urls url self) := by
  intro u
  unfold unregisterUrl
  split
  · split
    · by_cases hu : u = url
      · subst hu
        exact value?_removeAllFrom_self_ne_nil urls u self
      · rw [value?_removeAllFrom_ne urls self hu]
        exact h u
    · exact h u
  · exact h u

theorem value?_appendTo_ne (urls : QHash (List Nat)) {url u : String} (self : Nat)
    (hne : u ≠ url) : (appendTo urls url self).value? u = urls.value? u := by
  unfold appendTo
  simp only []
  rw [QHash.value?_insert_ne _ _ hne]
  split
  · rfl
  · exact QHash.value?_insert_ne _ _ hne

theorem value?_appendTo_self (urls : QHash (List Nat)) (url : String) (self : Nat) :
    (appendTo urls url self).value? url = some (bucket urls url ++ [self]) := by
  unfold appendTo
  simp only []
  rw [QHash.value?_insert_self]
  by_cases hc : urls.contains url = true
  · simp [hc, bucket]
  · have h1 : urls.value? url = none := by simpa [QHash.contains] using hc
    simp [hc, bucket, h1, QHash.value?_insert_self]

theorem bucket_appendTo_ne (urls : QHash (List Nat)) {url u : String} (self : Nat)
    (hne : u ≠ url) : bucket (appendTo urls url self) u = bucket urls u := by
  simp [bucket, value?_appendTo_ne urls self hne]

theorem bucket_appendTo_self (urls : QHash (List Nat)) (url : String) (self : Nat) :
    bucket (appendTo urls url self) url = bucket urls url ++ [self] := by
  simp [bucket, value?_appendTo_self]

theorem noEmptyBucket_appendTo {urls : QHash (List Nat)} (h : NoEmptyBucket urls)
    (url : String) (self : Nat) : NoEmptyBucket (appendTo urls url self) := by
  intro u
  by_cases hu : u = url
  · subst hu
    rw [value?_appendTo_self]
    simp
  · rw [value?_appendTo_ne urls self hu]
    exact h u

theorem bucket_registerUrl (urls : QHash (List Nat)) (url u : String) (self : Nat) :
    bucket (registerUrl urls url self) u
      = if u = url ∧ url ≠ "" then bucket urls url ++ [self] else bucket urls u := by
  unfold registerUrl
  by_cases h0 : url = ""
  · simp [h0]
  · by_cases hu : u = url
    · subst hu
      simp [h0, bucket_appendTo_self]
    · simp [h0, hu, bucket_appendTo_ne urls self hu]

theorem noEmptyBucket_registerUrl {urls : QHash (List Nat)} (h : NoEmptyBucket urls)
    (url : String) (self : Nat) : NoEmptyBucket (registerUrl urls url self) := by
  unfold registerUrl
  split
  · exact noEmptyBucket_appendTo h url self
  · exact h

/-! ## The URL index against an assignment of URLs to handles -/

theorem IndexOk.congr {urls : QHash (List Nat)} {f g : Nat → Option String}
    (h : IndexOk urls f) (hfg : ∀ n u, u ≠ "" → (g n = some u ↔ f n = some u)) :
    IndexOk urls g := by
  refine ⟨fun u n => ?_, h.nodup, h.noEmpty⟩
  rw [h.mem_iff u n]
  constructor
  · rintro ⟨hu, hf⟩
    exact ⟨hu, (hfg n u hu).2 hf⟩
  · rintro ⟨hu, hg⟩
    exact ⟨hu, (hfg n u hu).1 hg⟩

theorem IndexOk.unregister {urls : QHash (List Nat)} {f : Nat → Option String}
    (h : IndexOk urls f) {n : Nat} {a : String} (hn : f n = some a) :
    IndexOk (unregisterUrl urls a n) (Function.update f n none) := by
  refine ⟨fun u m => ?_, fun u => ?_, noEmptyBucket_unregisterUrl h.noEmpty a n⟩
  · rw [bucket_unregisterUrl]
    by_cases hc : u = a ∧ a ≠ ""
    · obtain ⟨rfl, ha⟩ := hc
      simp only [ha, and_self, not_false_eq_true, ne_eq, if_true, List.mem_filter, h.mem_iff,
        decide_eq_true_eq, true_and]
      by_cases hm : m = n
      · subst hm
        simp
      · simp [hm, Function.update_noteq hm]
    · rw [if_neg hc, h.mem_iff]
      by_cases hm : m = n
      · subst hm
        rw [hn, Function.update_same]
        constructor
        · rintro ⟨hu, hau⟩
          have hau' : a = u := Option.some.inj hau
          exact absurd ⟨hau'.symm, hau' ▸ hu⟩ hc
        · rintro ⟨_, hx⟩
          exact Option.noConfusion hx
      · simp [Function.update_noteq hm]
  · rw [bucket_unregisterUrl]
    split
    · exact (h.nodup a).filter _
    · exact h.nodup u

theorem IndexOk.register {urls : QHash (List Nat)} {f : Nat → Option String}
    (h : IndexOk urls f) {n : Nat} (b : String) (hn : f n = none) :
    IndexOk (registerUrl urls b n) (Function.update f n (some b)) := by
  have hnot : ∀ u, n ∉ bucket urls u := by
    intro u hmem
    have := ((h.mem_iff u n).1 hmem).2
    rw [hn] at this
    exact Option.noConfusion this
  refine ⟨fun u m => ?_, fun u => ?_, noEmptyBucket_registerUrl h.noEmpty b n⟩
  · rw [bucket_registerUrl]
    by_cases hc : u = b ∧ b ≠ ""
    · obtain ⟨rfl, hb⟩ := hc
      simp only [hb, and_self, not_false_eq_true, ne_eq, if_true, List.mem_append, h.mem_iff,
        List.mem_singleton, true_and]
      by_cases hm : m = n
      · subst hm
        simp
      · simp [hm, Function.update_noteq hm]
    · rw [if_neg hc, h.mem_iff]
      by_cases hm : m = n
      · subst hm
        rw [hn, Function.update_same]
        constructor
        · rintro ⟨_, hx⟩
          exact Option.noConfusion hx
        · rintro ⟨hu, hbu⟩
          have hbu' : b = u := Option.some.inj hbu
          exact absurd ⟨hbu'.symm, hbu' ▸ hu⟩ hc
      · simp [Function.update_noteq hm]
  · rw [bucket_registerUrl]
    split
    · rw [List.nodup_append]
      refine ⟨h.nodup b, List.nodup_singleton n, ?_⟩
      intro x hx hx'
      rw [List.mem_singleton] at hx'
      exact hnot b (hx' ▸ hx)
    · exact h.nodup u

/-! ## Heap lemmas -/

theorem item?_lt {s : State} {n : Nat} {it : BookmarksItem} (h : s.item? n = some it) :
    n < s.heap.length := by
  by_contra hn
  have : s.heap[n]? = none := List.getElem?_eq_none (Nat.le_of_not_lt hn)
  simp [State.item?, this] at h

theorem item?_store_self {s : State} {n : Nat} (x : Option BookmarksItem)
    (h : n < s.heap.length) : (s.store n x).item? n = x := by
  simp [State.item?, State.store, List.getElem?_set, h]

theorem item?_store_ne (s : State) {n m : Nat} (x : Option BookmarksItem) (h : m ≠ n) :
    (s.store n x).item? m = s.item? m := by
  have h0 : n ≠ m := fun e => h e.symm
  simp [State.item?, State.store, List.getElem?_set, h0]

/-! ## Projections of `setData` -/

theorem setData_of_none {s : State} {n : Nat} (h : s.item? n = none) (v : String)
    (r : BookmarksRole) : setData s n v r = s := by
  simp [setData, h]

theorem setData_heap {s : State} {n : Nat} {it : BookmarksItem} (h : s.item? n = some it)
    (v : String) (r : BookmarksRole) :
    (setData s n v r).heap = s.heap.set n (some (it.write v r)) := by
  simp only [setData, h, State.store]
  split
  · rfl
  · split <;> rfl

theorem setData_m_urls {s : State} {n : Nat} {it : BookmarksItem} (h : s.item? n = some it)
    (v : String) (r : BookmarksRole) :
    (setData s n v r).m_urls
      = if r = .UrlRole ∧ v ≠ it.url then registerUrl (unregisterUrl s.m_urls it.url n) v n
        else s.m_urls := by
  simp only [setData, h, State.store]
  split
  · rfl
  · split <;> rfl

theorem setData_m_keywords {s : State} {n : Nat} {it : BookmarksItem} (h : s.item? n = some it)
    (v : String) (r : BookmarksRole) :
    (setData s n v r).m_keywords
      = if r = .KeywordRole ∧ v ≠ it.keyword then
          (if v ≠ "" then
            (if it.keyword ≠ "" ∧ s.m_keywords.contains it.keyword = true
              then s.m_keywords.remove it.keyword else s.m_keywords).insert v n
           else (if it.keyword ≠ "" ∧ s.m_keywords.contains it.keyword = true
              then s.m_keywords.remove it.keyword else s.m_keywords))
        else s.m_keywords := by
  simp only [setData, h, State.store]
  by_cases h1 : r = .UrlRole ∧ v ≠ it.url
  · have h2 : ¬ (r = .KeywordRole ∧ v ≠ it.keyword) := by
      rintro ⟨hr, _⟩
      rw [h1.1] at hr
      exact BookmarksRole.noConfusion hr
    rw [if_pos h1, if_neg h2]
  · rw [if_neg h1]
    split <;> rfl

theorem item?_setData_self {s : State} {n : Nat} {it : BookmarksItem} (h : s.item? n = some it)
    (v : String) (r : BookmarksRole) : (setData s n v r).item? n = some (it.write v r) := by
  have hh := setData_heap h v r
  have hl := item?_lt h
  simp [State.item?, hh, List.getElem?_set, hl]

theorem item?_setData_ne (s : State) {n m : Nat} (hm : m ≠ n) (v : String) (r : BookmarksRole) :
    (setData s n v r).item? m = s.item? m := by
  cases h : s.item? n with
  | none => rw [setData_of_none h]
  | some it =>
    have hh := setData_heap h v r
    have h0 : n ≠ m := fun e => hm e.symm
    simp [State.item?, hh, List.getElem?_set, h0]

/-! ## The URL index invariant -/

theorem urlInv_init : UrlInv State.init := by
  refine ⟨fun u n => ?_, fun u => ?_, fun u => ?_⟩
  · simp [State.init, bucket, QHash.value?, urlOf, State.item?]
  · simp [State.init, bucket, QHash.value?]
  · simp [State.init, QHash.value?]

theorem UrlInv.frame {s t : State} (h : UrlInv s) (hu : t.m_urls = s.m_urls)
    (hf : ∀ n, urlOf t n = urlOf s n) : UrlInv t := by
  unfold UrlInv
  rw [hu]
  exact IndexOk.congr h (fun n u _ => by rw [hf n])

theorem write_url_of_ne (it : BookmarksItem) (v : String) {r : BookmarksRole}
    (hr : r ≠ .UrlRole) : (it.write v r).url = it.url := by
  cases r <;> first | rfl | exact absurd rfl hr

theorem urlInv_setData {s : State} (h : UrlInv s) (n : Nat) (v : String) (r : BookmarksRole) :
    UrlInv (setData s n v r) := by
  cases hi : s.item? n with
  | none => rw [setData_of_none hi]; exact h
  | some it =>
    by_cases hc : r = .UrlRole ∧ v ≠ it.url
    · have hf : urlOf (setData s n v r) = Function.update (urlOf s) n (some v) := by
        funext m
        by_cases hm : m = n
        · subst hm
          rw [Function.update_same]
          simp [urlOf, item?_setData_self hi, hc.1, BookmarksItem.write]
        · rw [Function.update_noteq hm]
          simp [urlOf, item?_setData_ne s hm]
      unfold UrlInv
      rw [hf, setData_m_urls hi, if_pos hc]
      have h1 : IndexOk (unregisterUrl s.m_urls it.url n) (Function.update (urlOf s) n none) :=
        IndexOk.unregister h (by simp [urlOf, hi])
      have h2 := @IndexOk.register _ _ h1 n v (by simp)
      simpa using h2
    · refine h.frame ?_ ?_
      · rw [setData_m_urls hi, if_neg hc]
      · intro m
        by_cases hm : m = n
        · subst hm
          simp only [urlOf, item?_setData_self hi, hi, Option.map_some']
          by_cases hr : r = .UrlRole
          · have hv : v = it.url := by
              by_contra hv
              exact hc ⟨hr, hv⟩
            simp [hr, BookmarksItem.write, hv]
          · rw [write_url_of_ne it v hr]
        · simp [urlOf, item?_setData_ne s hm]

theorem urlInv_createNode {s : State} (h : UrlInv s) (type : BookmarkType) (url title : String) :
    UrlInv (createNode s type url title).1 := by
  unfold createNode
  simp only []
  apply urlInv_setData
  apply urlInv_setData
  unfold UrlInv
  refine IndexOk.congr h (fun n u hu => ?_)
  simp only [urlOf, State.item?]
  by_cases hn : n < s.heap.length
  · rw [List.getElem?_append_left hn]
  · have hge : s.heap.length ≤ n := Nat.le_of_not_lt hn
    rw [List.getElem?_eq_none hge]
    by_cases he : n = s.heap.length
    · subst he
      rw [List.getElem?_concat_length]
      constructor
      · intro h0
        exact absurd (Option.some.inj h0).symm hu
      · intro h0
        exact Option.noConfusion h0
    · rw [List.getElem?_eq_none]
      simp only [List.length_append, List.length_singleton]
      omega

theorem urlInv_destructor {s : State} (h : UrlInv s) {n : Nat} {it : BookmarksItem}
    (hi : s.item? n = some it) : UrlInv (destructor s n it) := by
  have hf : urlOf (destructor s n it) = Function.update (urlOf s) n none := by
    funext m
    by_cases hm : m = n
    · subst hm
      simp [urlOf, destructor, State.item?, List.getElem?_set, item?_lt hi]
    · have h0 : n ≠ m := fun e => hm e.symm
      simp [urlOf, destructor, State.item?, List.getElem?_set, h0, Function.update_noteq hm]
  unfold UrlInv
  rw [hf]
  exact IndexOk.unregister h (by simp [urlOf, hi])

theorem urlInv_destroyItems (fuel : Nat) : ∀ (wl : List Nat) (s : State), UrlInv s →
    UrlInv (destroyItems fuel wl s) := by
  induction fuel with
  | zero => intro wl s h; exact h
  | succ k ih =>
    intro wl s h
    cases wl with
    | nil => exact h
    | cons n rest =>
      simp only [destroyItems]
      cases hi : s.item? n with
      | none => exact ih rest s h
      | some it => exact ih _ _ (urlInv_destructor h hi)

theorem urlOf_store_children (s : State) (p : Nat) (pit pit' : BookmarksItem)
    (hp : s.item? p = some pit) (hurl : pit'.url = pit.url) (m : Nat) :
    urlOf (s.store p (some pit')) m = urlOf s m := by
  by_cases hm : m = p
  · subst hm
    simp [urlOf, item?_store_self _ (item?_lt hp), hp, hurl]
  · simp [urlOf, item?_store_ne s _ hm]

theorem urlInv_detach {s : State} (h : UrlInv s) (n : Nat) (it : BookmarksItem) :
    UrlInv (detach s n it) := by
  unfold detach
  cases it.parent with
  | none => exact h
  | some p =>
    simp only []
    cases hp : s.item? p with
    | none => exact h
    | some pit =>
      exact h.frame rfl (fun m => urlOf_store_children s p pit _ hp (by rfl) m)

theorem urlInv_destroyNode {s : State} (h : UrlInv s) (n : Nat) : UrlInv (destroyNode s n) := by
  unfold destroyNode
  cases hi : s.item? n with
  | none => exact h
  | some it => exact urlInv_destroyItems _ _ _ (urlInv_detach h n it)

theorem urlInv_appendRow {s : State} (h : UrlInv s) (p c : Nat) : UrlInv (appendRow s p c) := by
  unfold appendRow
  cases hp : s.item? p with
  | none => exact h
  | some pit =>
    cases hc : s.item? c with
    | none => exact h
    | some cit =>
      simp only []
      split
      · rename_i hg
        have h1 : UrlInv (s.store p (some { pit with children := pit.children ++ [c] })) :=
          h.frame rfl (fun m => urlOf_store_children s p pit _ hp (by rfl) m)
        have hc' : (s.store p (some { pit with children := pit.children ++ [c] })).item? c
            = some cit := by
          rw [item?_store_ne s _ (fun e => hg.2 e.symm), hc]
        exact h1.frame rfl (fun m => urlOf_store_children _ c cit _ hc' (by rfl) m)
      · exact h

theorem Reachable.urlInv {s : State} (h : Reachable s) : UrlInv s := by
  induction h with
  | start => exact urlInv_init
  | create type url title _ ih => exact urlInv_createNode ih type url title
  | set n value role _ ih => exact urlInv_setData ih n value role
  | append parent child _ ih => exact urlInv_appendRow ih parent child
  | destroy n _ ih => exact urlInv_destroyNode ih n

/-! ## Value-level frame lemmas -/

theorem value?_unregisterUrl_ne (urls : QHash (List Nat)) {url u : String} (self : Nat)
    (hne : u ≠ url) : (unregisterUrl urls url self).value? u = urls.value? u := by
  unfold unregisterUrl
  split
  · split
    · exact value?_removeAllFrom_ne urls self hne
    · rfl
  · rfl

theorem value?_registerUrl_ne (urls : QHash (List Nat)) {url u : String} (self : Nat)
    (hne : url ≠ "" → u ≠ url) : (registerUrl urls url self).value? u = urls.value? u := by
  unfold registerUrl
  split
  · rename_i h
    exact value?_appendTo_ne urls self (hne h)
  · rfl

theorem value?_eq_none_of_bucket {urls : QHash (List Nat)} (h : NoEmptyBucket urls) {u : String}
    (hb : bucket urls u = []) : urls.value? u = none := by
  cases hv : urls.value? u with
  | none => rfl
  | some b =>
    have : b = [] := by simpa [bucket, hv] using hb
    exact absurd (this ▸ hv) (h u)

theorem UrlInv.bucket_empty_key {s : State} (h : UrlInv s) : bucket s.m_urls "" = [] := by
  apply List.eq_nil_iff_forall_not_mem.2
  intro n hn
  exact ((h.mem_iff "" n).1 hn).1 rfl

/-- Claim C1, as amended. In every state reachable from the initial state by constructing items,
`setData` calls (among them `setUrl`), row insertion and destruction, `findNodesByUrl(u)` holds a
handle `n` exactly when `u` is non-empty, `n` is live and `n` currently holds `u`; a handle it
holds occurs exactly once. -/
theorem url_index_invariant {s : State} (hs : Reachable s) (u : String) (n : Nat) :
    (n ∈ getBookmarks s u ↔ (u ≠ "" ∧ ∃ it, s.item? n = some it ∧ it.url = u)) ∧
    (n ∈ getBookmarks s u → List.count n (getBookmarks s u) = 1) := by
  have h := hs.urlInv
  rw [getBookmarks_eq]
  refine ⟨?_, fun hm => List.count_eq_one_of_mem (h.nodup u) hm⟩
  rw [h.mem_iff u n]
  simp [urlOf]

/-- Claim C1 at a concrete state: the freshly constructed bookmark `0` is the one member of the
bucket of its URL. -/
theorem url_index_invariant_witness :
    Reachable stateOneUrl ∧
    ((0 ∈ getBookmarks stateOneUrl "http://a" ↔
        ("http://a" ≠ "" ∧ ∃ it, stateOneUrl.item? 0 = some it ∧ it.url = "http://a")) ∧
      (0 ∈ getBookmarks stateOneUrl "http://a" →
        List.count 0 (getBookmarks stateOneUrl "http://a") = 1)) :=
  ⟨Reachable.create _ _ _ Reachable.start,
    url_index_invariant (Reachable.create _ _ _ Reachable.start) "http://a" 0⟩

/-- Claim C1 as stated fails for the empty URL text: after constructing a folder (empty URL) the
item `0` is live and holds the URL `""`, yet `findNodesByUrl("")` does not contain it. -/
theorem url_index_invariant_counterexample :
    Reachable stateFolderOnly ∧
    ¬ (0 ∈ getBookmarks stateFolderOnly "" ↔
        ∃ it, stateFolderOnly.item? 0 = some it ∧ it.url = "") := by
  refine ⟨Reachable.create _ _ _ Reachable.start, ?_⟩
  intro h
  have h1 : ∃ it, stateFolderOnly.item? 0 = some it ∧ it.url = "" := ⟨_, rfl, rfl⟩
  have h2 := h.2 h1
  revert h2
  decide

/-- Claim C2. For a live item `n` holding URL `a` in a reachable state, `setUrl(n, b)` with
`b ≠ a` takes `n` out of the bucket of `a` (the other members stay, and `a` stops being a key when
`n` was the only member), makes the bucket of a non-empty `b` its previous contents followed by
`n`, and leaves every other key as it was; `setUrl(n, a)` leaves the URL index unchanged. -/
theorem setUrl_postcondition {s : State} (hs : Reachable s) {n : Nat} {it : BookmarksItem}
    (hn : s.item? n = some it) (b : String) :
    (b ≠ it.url →
      n ∉ getBookmarks (setUrl s n b) it.url ∧
      getBookmarks (setUrl s n b) it.url
        = (getBookmarks s it.url).filter (fun m => decide (m ≠ n)) ∧
      ((∀ m ∈ getBookmarks s it.url, m = n) → hasUrl (setUrl s n b) it.url = false) ∧
      (b ≠ "" → getBookmarks (setUrl s n b) b = getBookmarks s b ++ [n]) ∧
      (∀ u, u ≠ it.url → (b ≠ "" → u ≠ b) →
        (setUrl s n b).m_urls.value? u = s.m_urls.value? u)) ∧
    (b = it.url → (setUrl s n b).m_urls = s.m_urls) := by
  have hinv := hs.urlInv
  have hinv' : UrlInv (setUrl s n b) := urlInv_setData hinv n b _
  constructor
  · intro hb
    have hm : (setUrl s n b).m_urls = registerUrl (unregisterUrl s.m_urls it.url n) b n := by
      unfold setUrl
      rw [setData_m_urls hn, if_pos ⟨rfl, hb⟩]
    have hab : ¬ (it.url = b ∧ b ≠ "") := fun h => hb h.1.symm
    have hold : getBookmarks (setUrl s n b) it.url
        = (getBookmarks s it.url).filter (fun m => decide (m ≠ n)) := by
      rw [getBookmarks_eq, getBookmarks_eq, hm, bucket_registerUrl, if_neg hab,
        bucket_unregisterUrl]
      by_cases ha : it.url = ""
      · rw [ha] at *
        simp [hinv.bucket_empty_key]
      · simp [ha]
    refine ⟨?_, hold, ?_, ?_, ?_⟩
    · rw [hold]
      simp
    · intro honly
      have he : bucket (setUrl s n b).m_urls it.url = [] := by
        rw [← getBookmarks_eq, hold, List.filter_eq_nil_iff]
        intro m hmem
        simp [honly m hmem]
      simp [hasUrl, QHash.contains, value?_eq_none_of_bucket hinv'.noEmpty he]
    · intro hbne
      rw [getBookmarks_eq, getBookmarks_eq, hm, bucket_registerUrl, if_pos ⟨rfl, hbne⟩,
        bucket_unregisterUrl, if_neg (fun h => hb h.1)]
    · intro u hua hub
      rw [hm, value?_registerUrl_ne _ _ hub, value?_unregisterUrl_ne _ _ hua]
  · intro hb
    unfold setUrl
    rw [setData_m_urls hn, if_neg (fun h => h.2 hb)]

/-- Claim C2 at a concrete state: bookmark `1` moves from `http://a` to `http://b`. -/
theorem setUrl_postcondition_witness :
    Reachable stateTwoUrls ∧
    stateTwoUrls.item? 1 = some
      { type := .UrlBookmark, url := "http://a", title := "B", description := "", keyword := "",
        parent := none, children := [] } ∧
    getBookmarks (setUrl stateTwoUrls 1 "http://b") "http://a" = [0] ∧
    getBookmarks (setUrl stateTwoUrls 1 "http://b") "http://b" = [1] := by
  have hr : Reachable stateTwoUrls :=
    Reachable.create _ _ _ (Reachable.create _ _ _ Reachable.start)
  have hi : stateTwoUrls.item? 1 = some
      { type := .UrlBookmark, url := "http://a", title := "B", description := "", keyword := "",
        parent := none, children := [] } := by decide
  have h := (setUrl_postcondition hr hi "http://b").1 (by decide)
  refine ⟨hr, hi, ?_, ?_⟩
  · rw [h.2.1]
    decide
  · rw [h.2.2.2.1 (by decide)]
    decide

/-- Claim C3. The constructor registers a non-empty URL at once: right after
`new BookmarksItem(type, url, title)`, with no row insertion, `findNodesByUrl(url)` contains the
new item and `hasUrl(url)` holds; with an empty URL the URL index is the one before the call. -/
theorem createNode_registers_url (s : State) (type : BookmarkType) (url title : String) :
    (url ≠ "" →
      (createNode s type url title).2 ∈ getBookmarks (createNode s type url title).1 url ∧
      hasUrl (createNode s type url title).1 url = true) ∧
    (url = "" → (createNode s type url title).1.m_urls = s.m_urls) := by
  let blank : BookmarksItem :=
    { type := type, url := "", title := "", description := "", keyword := "",
      parent := none, children := [] }
  let s0 : State := { s with heap := s.heap ++ [some blank] }
  have h0 : s0.item? s.heap.length = some blank := by
    simp [s0, State.item?]
  have h1 : (setData s0 s.heap.length url .UrlRole).item? s.heap.length
      = some (blank.write url .UrlRole) := item?_setData_self h0 url _
  have hm : (createNode s type url title).1.m_urls
      = if url ≠ "" then registerUrl (unregisterUrl s.m_urls "" s.heap.length) url s.heap.length
        else s.m_urls := by
    show (setData (setData s0 s.heap.length url .UrlRole) s.heap.length title .TitleRole).m_urls
      = _
    rw [setData_m_urls h1, if_neg (fun h => BookmarksRole.noConfusion h.1), setData_m_urls h0]
    by_cases hu : url = ""
    · simp [hu, blank]
    · have hu' : ¬ url = blank.url := hu
      simp [hu, hu']
  constructor
  · intro hu
    have hb : getBookmarks (createNode s type url title).1 url
        = bucket s.m_urls url ++ [s.heap.length] := by
      rw [getBookmarks_eq, hm, if_pos hu, bucket_registerUrl, if_pos ⟨rfl, hu⟩]
      simp [unregisterUrl]
    have hmem : (createNode s type url title).2 ∈ getBookmarks (createNode s type url title).1 url
        := by
      rw [hb]
      simp [createNode]
    refine ⟨hmem, ?_⟩
    rw [getBookmarks] at hmem
    by_contra hc
    simp [hasUrl] at hc
    simp [hc] at hmem
  · intro hu
    rw [hm, if_neg (fun h => h hu)]

/-- Claim C3 at a concrete state: the bookmark constructed at program start is indexed. -/
theorem createNode_registers_url_witness :
    (0 ∈ getBookmarks stateOneUrl "http://a" ∧ hasUrl stateOneUrl "http://a" = true) ∧
    stateFolderOnly.m_urls = State.init.m_urls :=
  ⟨(createNode_registers_url State.init .UrlBookmark "http://a" "A").1 (by decide),
    (createNode_registers_url State.init .FolderBookmark "" "F").2 rfl⟩

/-! ## Calls of `setData` that change nothing -/

theorem list_set_same {α : Type} : ∀ (l : List α) (n : Nat) (a : α), l[n]? = some a →
    l.set n a = l
  | [], _, _, _ => rfl
  | x :: t, 0, a, h => by
    have hx : x = a := by simpa using h
    simp [hx]
  | x :: t, n + 1, a, h => by
    have ht : t[n]? = some a := by simpa using h
    simp [list_set_same t n a ht]

theorem heap_of_item? {s : State} {n : Nat} {it : BookmarksItem} (h : s.item? n = some it) :
    s.heap[n]? = some (some it) := by
  unfold State.item? at h
  exact Option.join_eq_some.1 h

theorem store_same {s : State} {n : Nat} {it : BookmarksItem} (h : s.item? n = some it) :
    s.store n (some it) = s := by
  cases s with
  | mk heap urls kws =>
    have hh : heap[n]? = some (some it) := heap_of_item? h
    simp [State.store, list_set_same heap n (some it) hh]

theorem setUrl_same {s : State} {n : Nat} {it : BookmarksItem} (h : s.item? n = some it) :
    setUrl s n it.url = s := by
  have hw : it.write it.url .UrlRole = it := rfl
  simp only [setUrl, setData, h, hw]
  simpa using store_same h

theorem setKeyword_same {s : State} {n : Nat} {it : BookmarksItem} (h : s.item? n = some it) :
    setKeyword s n it.keyword = s := by
  have hw : it.write it.keyword .KeywordRole = it := rfl
  simp only [setKeyword, setData, h, hw]
  simpa using store_same h

/-! ## Keyword index -/

theorem getBookmark_eq (s : State) (k : String) : getBookmark s k = s.m_keywords.value? k := by
  unfold getBookmark
  by_cases h : s.m_keywords.contains k = true
  · simp [h]
  · have h1 : s.m_keywords.value? k = none := by simpa [QHash.contains] using h
    simp [h, h1]

theorem setKeyword_m_keywords {s : State} {n : Nat} {it : BookmarksItem}
    (h : s.item? n = some it) {k : String} (hk : k ≠ it.keyword) :
    (setKeyword s n k).m_keywords
      = if k ≠ "" then
          (if it.keyword ≠ "" ∧ s.m_keywords.contains it.keyword = true
            then s.m_keywords.remove it.keyword else s.m_keywords).insert k n
        else (if it.keyword ≠ "" ∧ s.m_keywords.contains it.keyword = true
            then s.m_keywords.remove it.keyword else s.m_keywords) := by
  unfold setKeyword
  rw [setData_m_keywords h, if_pos ⟨rfl, hk⟩]

/-- Claim C4. For distinct live items `n1`, `n2` and a non-empty keyword `k` that `n2` does not
hold yet (the keyword of `n1` may be anything, so in particular different from `k`), after
`setKeyword(n1, k)` then `setKeyword(n2, k)` the lookup `findNodeByKeyword(k)` returns `n2` while
the keyword field of `n1` still holds `k`. -/
theorem keyword_overwrite (s : State) {n1 n2 : Nat} {it1 it2 : BookmarksItem}
    (h1 : s.item? n1 = some it1) (h2 : s.item? n2 = some it2) (hne : n1 ≠ n2)
    {k : String} (hk : k ≠ "") (hk2 : it2.keyword ≠ k) :
    getBookmark (setKeyword (setKeyword s n1 k) n2 k) k = some n2 ∧
    ∃ it, (setKeyword (setKeyword s n1 k) n2 k).item? n1 = some it ∧ it.keyword = k := by
  have h2' : (setKeyword s n1 k).item? n2 = some it2 := by
    unfold setKeyword
    rw [item?_setData_ne s (fun e => hne e.symm), h2]
  constructor
  · rw [getBookmark_eq, setKeyword_m_keywords h2' (fun e => hk2 e.symm), if_pos hk,
      QHash.value?_insert_self]
  · refine ⟨it1.write k .KeywordRole, ?_, rfl⟩
    unfold setKeyword
    rw [item?_setData_ne _ hne, item?_setData_self h1]

/-- Claim C4 at a concrete state: both bookmarks are given the keyword `k` in turn. -/
theorem keyword_overwrite_witness :
    getBookmark (setKeyword (setKeyword stateTwoNodes 0 "k") 1 "k") "k" = some 1 ∧
    ∃ it, (setKeyword (setKeyword stateTwoNodes 0 "k") 1 "k").item? 0 = some it ∧
      it.keyword = "k" :=
  keyword_overwrite stateTwoNodes
    (show stateTwoNodes.item? 0 = some
      { type := .UrlBookmark, url := "http://a", title := "A", description := "", keyword := "",
        parent := none, children := [] } from rfl)
    (show stateTwoNodes.item? 1 = some
      { type := .UrlBookmark, url := "http://b", title := "B", description := "", keyword := "",
        parent := none, children := [] } from rfl)
    (by decide) (show "k" ≠ "" by decide) (by decide)

/-- Claim C5 at its failing input: the bookmark `0` with URL `http://a` and keyword `k` is
destroyed; the destructor looks the URL text up in the keyword index instead of the keyword, so
the mapping of `k` survives and still refers to the destroyed item. -/
theorem destroy_keeps_keyword :
    Reachable stateKeyword ∧
    getBookmark stateKeyword "k" = some 0 ∧
    (destroyNode stateKeyword 0).item? 0 = none ∧
    hasKeyword (destroyNode stateKeyword 0) "k" = true ∧
    getBookmark (destroyNode stateKeyword 0) "k" = some 0 := by
  refine ⟨Reachable.set 0 "k" .KeywordRole
    (Reachable.create .UrlBookmark "http://a" "A" Reachable.start), ?_, ?_, ?_, ?_⟩ <;> rfl

/-- Claim C6 at its failing input: destroying the folder `0` destroys its row `1` and empties the
URL index, but the keyword `k` of the destroyed row stays a key of the keyword index. -/
theorem destroy_folder_keeps_keyword :
    Reachable stateFolderTree ∧
    (∃ it, stateFolderTree.item? 0 = some it ∧ it.type = .FolderBookmark ∧ it.children = [1]) ∧
    getBookmark stateFolderTree "k" = some 1 ∧
    (destroyNode stateFolderTree 0).item? 1 = none ∧
    hasUrl (destroyNode stateFolderTree 0) "http://a" = false ∧
    hasKeyword (destroyNode stateFolderTree 0) "k" = true := by
  refine ⟨Reachable.append 0 1 (Reachable.set 1 "k" .KeywordRole
    (Reachable.create .UrlBookmark "http://a" "A"
      (Reachable.create .FolderBookmark "" "F" Reachable.start))), ?_, ?_, ?_, ?_, ?_⟩
  · exact ⟨_, rfl, rfl, rfl⟩
  all_goals rfl

theorem reachable_stateStaleKeyword : Reachable stateStaleKeyword :=
  Reachable.set 1 "k" .KeywordRole (Reachable.set 0 "k" .KeywordRole
    (Reachable.create .UrlBookmark "http://b" "B"
      (Reachable.create .UrlBookmark "http://a" "A" Reachable.start)))

/-- Claim C7, as amended. When the keyword field of the live item `n` is a non-empty `k` and
`newKeyword` differs from `k`, `setKeyword(n, newKeyword)` leaves no mapping for `k` in the keyword
index, whichever item the index mapped `k` to. -/
theorem setKeyword_removes_old (s : State) {n : Nat} {it : BookmarksItem}
    (hn : s.item? n = some it) (hk : it.keyword ≠ "") {newKeyword : String}
    (hne : newKeyword ≠ it.keyword) :
    getBookmark (setKeyword s n newKeyword) it.keyword = none ∧
    hasKeyword (setKeyword s n newKeyword) it.keyword = false := by
  have hv : (setKeyword s n newKeyword).m_keywords.value? it.keyword = none := by
    rw [setKeyword_m_keywords hn hne]
    have hrem : (if it.keyword ≠ "" ∧ s.m_keywords.contains it.keyword = true
        then s.m_keywords.remove it.keyword else s.m_keywords).value? it.keyword = none := by
      by_cases hc : s.m_keywords.contains it.keyword = true
      · rw [if_pos ⟨hk, hc⟩]
        exact QHash.value?_remove_self _ _
      · rw [if_neg (fun h => hc h.2)]
        simpa [QHash.contains] using hc
    split
    · rw [QHash.value?_insert_ne _ _ (fun e => hne e.symm)]
      exact hrem
    · exact hrem
  refine ⟨by rw [getBookmark_eq, hv], ?_⟩
  simp [hasKeyword, QHash.contains, hv]

/-- Claim C7, as amended, at a concrete state: bookmark `0` (field `k`) is given the keyword `j`
while the index maps `k` to bookmark `1`. -/
theorem setKeyword_removes_old_witness :
    getBookmark (setKeyword stateStaleKeyword 0 "j") "k" = none ∧
    hasKeyword (setKeyword stateStaleKeyword 0 "j") "k" = false :=
  setKeyword_removes_old stateStaleKeyword
    (show stateStaleKeyword.item? 0 = some
      { type := .UrlBookmark, url := "http://a", title := "A", description := "", keyword := "k",
        parent := none, children := [] } from rfl)
    (by decide) (show "j" ≠ "k" by decide)

/-- Claim C7 as stated fails: bookmark `0` has the keyword field `k`, the index maps `k` to the
different bookmark `1`, and after `setKeyword(0, "j")` the index no longer maps `k` to `1`. -/
theorem setKeyword_frame_counterexample :
    Reachable stateStaleKeyword ∧
    (∃ it, stateStaleKeyword.item? 0 = some it ∧ it.keyword = "k") ∧
    getBookmark stateStaleKeyword "k" = some 1 ∧
    getBookmark (setKeyword stateStaleKeyword 0 "j") "k" ≠ some 1 := by
  refine ⟨reachable_stateStaleKeyword, ?_, ?_, ?_⟩
  · exact ⟨_, rfl, rfl⟩
  · rfl
  · rw [show getBookmark (setKeyword stateStaleKeyword 0 "j") "k" = none from rfl]
    exact fun h => Option.noConfusion h

/-- Claim C8, as amended. For a live item `n` and a non-empty keyword `k`: when the keyword field
of `n` is not already `k`, `findNodeByKeyword(k)` returns `n` directly after `setKeyword(n, k)`;
when the field is already `k` the call changes nothing at all. -/
theorem setKeyword_latest (s : State) {n : Nat} {it : BookmarksItem} (hn : s.item? n = some it)
    {k : String} (hk : k ≠ "") :
    (it.keyword ≠ k → getBookmark (setKeyword s n k) k = some n) ∧
    (it.keyword = k → setKeyword s n k = s) := by
  constructor
  · intro hne
    rw [getBookmark_eq, setKeyword_m_keywords hn (fun e => hne e.symm), if_pos hk,
      QHash.value?_insert_self]
  · intro he
    rw [← he]
    exact setKeyword_same hn

/-- Claim C8, as amended, at a concrete state: bookmark `0` takes the keyword `j`, and a repeated
`setKeyword(1, "k")` changes nothing. -/
theorem setKeyword_latest_witness :
    getBookmark (setKeyword stateStaleKeyword 0 "j") "j" = some 0 ∧
    setKeyword stateStaleKeyword 1 "k" = stateStaleKeyword :=
  ⟨(setKeyword_latest stateStaleKeyword
      (show stateStaleKeyword.item? 0 = some
        { type := .UrlBookmark, url := "http://a", title := "A", description := "",
          keyword := "k", parent := none, children := [] } from rfl)
      (show "j" ≠ "" by decide)).1 (by decide),
    (setKeyword_latest stateStaleKeyword
      (show stateStaleKeyword.item? 1 = some
        { type := .UrlBookmark, url := "http://b", title := "B", description := "",
          keyword := "k", parent := none, children := [] } from rfl)
      (show "k" ≠ "" by decide)).2 rfl⟩

/-- Claim C8 as stated fails: in a state reached by `setKeyword(0, "k")` then
`setKeyword(1, "k")`, the call `setKeyword(0, "k")` finds the field of `0` already `k`, does
nothing, and `findNodeByKeyword("k")` returns `1`, not `0`. -/
theorem setKeyword_latest_counterexample :
    Reachable stateStaleKeyword ∧
    (∃ it, stateStaleKeyword.item? 0 = some it) ∧
    getBookmark (setKeyword stateStaleKeyword 0 "k") "k" ≠ some 0 := by
  refine ⟨reachable_stateStaleKeyword, ⟨_, rfl⟩, ?_⟩
  rw [show getBookmark (setKeyword stateStaleKeyword 0 "k") "k" = some 1 from rfl]
  decide

/-! ## Repeated and reverted URL assignments -/

theorem item?_setUrl_self {s : State} {n : Nat} {it : BookmarksItem} (h : s.item? n = some it)
    (u : String) : (setUrl s n u).item? n = some { it with url := u } :=
  item?_setData_self h u .UrlRole

theorem UrlInv.count_eq_one {s : State} (h : UrlInv s) {n : Nat} {it : BookmarksItem}
    (hn : s.item? n = some it) (hu : it.url ≠ "") :
    List.count n (getBookmarks s it.url) = 1 := by
  rw [getBookmarks_eq]
  apply List.count_eq_one_of_mem (h.nodup _)
  rw [h.mem_iff]
  exact ⟨hu, by simp [urlOf, hn]⟩

/-- Claim C9. For a live item `n` of a reachable state and a non-empty URL `u`, a second
`setUrl(n, u)` right after the first leaves the whole state, both indexes included, as the first
call left it, and the bucket of `u` holds `n` exactly once. -/
theorem setUrl_idempotent {s : State} (hs : Reachable s) {n : Nat} {it : BookmarksItem}
    (hn : s.item? n = some it) {u : String} (hu : u ≠ "") :
    setUrl (setUrl s n u) n u = setUrl s n u ∧
    (setUrl (setUrl s n u) n u).m_urls = (setUrl s n u).m_urls ∧
    (setUrl (setUrl s n u) n u).m_keywords = (setUrl s n u).m_keywords ∧
    List.count n (getBookmarks (setUrl s n u) u) = 1 := by
  have h1 := item?_setUrl_self hn u
  have he : setUrl (setUrl s n u) n u = setUrl s n u := setUrl_same h1
  refine ⟨he, by rw [he], by rw [he], ?_⟩
  have hinv : UrlInv (setUrl s n u) := urlInv_setData hs.urlInv n u _
  exact hinv.count_eq_one h1 hu

/-- Claim C9 at a concrete state: `setUrl(0, "http://b")` twice on the bookmark `0`. -/
theorem setUrl_idempotent_witness :
    Reachable stateOneUrl ∧
    setUrl (setUrl stateOneUrl 0 "http://b") 0 "http://b" = setUrl stateOneUrl 0 "http://b" ∧
    List.count 0 (getBookmarks (setUrl stateOneUrl 0 "http://b") "http://b") = 1 :=
  have h := setUrl_idempotent (Reachable.create .UrlBookmark "http://a" "A" Reachable.start)
    (show stateOneUrl.item? 0 = some
      { type := .UrlBookmark, url := "http://a", title := "A", description := "", keyword := "",
        parent := none, children := [] } from rfl)
    (show "http://b" ≠ "" by decide)
  ⟨Reachable.create .UrlBookmark "http://a" "A" Reachable.start, h.1, h.2.2.2⟩

/-- Claim C10. For a live item `n` of a reachable state holding the non-empty URL `A` and a
non-empty `B ≠ A`, after `setUrl(n, B)` then `setUrl(n, A)` the bucket of `A` holds `n` exactly
once, `findNodesByUrl(B)` does not contain `n`, and `B` is no key of the index when no other live
item holds `B`. -/
theorem setUrl_back_no_residue {s : State} (hs : Reachable s) {n : Nat} {it : BookmarksItem}
    (hn : s.item? n = some it) {B : String} (hA : it.url ≠ "") (hAB : it.url ≠ B) :
    List.count n (getBookmarks (setUrl (setUrl s n B) n it.url) it.url) = 1 ∧
    n ∉ getBookmarks (setUrl (setUrl s n B) n it.url) B ∧
    ((∀ m it', m ≠ n → s.item? m = some it' → it'.url ≠ B) →
      hasUrl (setUrl (setUrl s n B) n it.url) B = false) := by
  have h1 := item?_setUrl_self hn B
  have h2 := item?_setUrl_self h1 it.url
  have hinv : UrlInv (setUrl (setUrl s n B) n it.url) :=
    urlInv_setData (urlInv_setData hs.urlInv n B _) n it.url _
  have hmem : ∀ m, m ∈ bucket (setUrl (setUrl s n B) n it.url).m_urls B →
      m ≠ n ∧ ∃ it', s.item? m = some it' ∧ it'.url = B := by
    intro m hm
    have hm' := ((hinv.mem_iff B m).1 hm).2
    have hmn : m ≠ n := by
      rintro rfl
      rw [urlOf, h2] at hm'
      exact hAB (Option.some.inj hm')
    refine ⟨hmn, ?_⟩
    unfold setUrl at hm'
    rw [urlOf, item?_setData_ne _ hmn, item?_setData_ne _ hmn] at hm'
    cases hi : s.item? m with
    | none => rw [hi] at hm'; exact Option.noConfusion hm'
    | some it' =>
      rw [hi] at hm'
      exact ⟨it', rfl, Option.some.inj hm'⟩
  refine ⟨hinv.count_eq_one h2 hA, ?_, ?_⟩
  · rw [getBookmarks_eq]
    exact fun hm => (hmem n hm).1 rfl
  · intro hother
    have he : bucket (setUrl (setUrl s n B) n it.url).m_urls B = [] := by
      apply List.eq_nil_iff_forall_not_mem.2
      intro m hm
      obtain ⟨hmn, it', hi, hu⟩ := hmem m hm
      exact hother m it' hmn hi hu
    simp [hasUrl, QHash.contains, value?_eq_none_of_bucket hinv.noEmpty he]

/-- Claim C10 at a concrete state: bookmark `0` goes from `http://a` to `http://b` and back. -/
theorem setUrl_back_no_residue_witness :
    Reachable stateOneUrl ∧
    List.count 0 (getBookmarks (setUrl (setUrl stateOneUrl 0 "http://b") 0 "http://a")
      "http://a") = 1 ∧
    0 ∉ getBookmarks (setUrl (setUrl stateOneUrl 0 "http://b") 0 "http://a") "http://b" ∧
    hasUrl (setUrl (setUrl stateOneUrl 0 "http://b") 0 "http://a") "http://b" = false :=
  have h := setUrl_back_no_residue (Reachable.create .UrlBookmark "http://a" "A" Reachable.start)
    (show stateOneUrl.item? 0 = some
      { type := .UrlBookmark, url := "http://a", title := "A", description := "", keyword := "",
        parent := none, children := [] } from rfl)
    (show "http://a" ≠ "" by decide) (show "http://a" ≠ "http://b" by decide)
  ⟨Reachable.create .UrlBookmark "http://a" "A" Reachable.start, h.1, h.2.1,
    h.2.2 (fun m it' hm hi => by
      have hlt : m < 1 := item?_lt hi
      exact absurd (Nat.lt_one_iff.1 hlt) hm)⟩

/-! ## The fuel of `destroyItems` is enough -/

theorem childCount_set_none : ∀ (heap : List (Option BookmarksItem)) (n : Nat)
    (it : BookmarksItem), heap[n]? = some (some it) →
    childCount (heap.set n none) + it.children.length = childCount heap
  | [], _, _, h => by simp at h
  | x :: t, 0, it, h => by
    have hx : x = some it := by simpa using h
    subst hx
    simp only [List.set_cons_zero, childCount]
    omega
  | x :: t, n + 1, it, h => by
    have ht : t[n]? = some (some it) := by simpa using h
    have ih := childCount_set_none t n it ht
    cases x with
    | none => simpa [childCount] using ih
    | some y =>
      simp only [List.set_cons_succ, childCount]
      omega

/-- Once the fuel covers the pending work (worklist entries plus child rows of live items), one
more unit of fuel does not change the result of `destroyItems`: the deletion has run to its end. -/
theorem destroyItems_fuel_stable : ∀ (fuel : Nat) (wl : List Nat) (s : State),
    wl.length + childCount s.heap ≤ fuel →
    destroyItems (fuel + 1) wl s = destroyItems fuel wl s := by
  intro fuel
  induction fuel with
  | zero =>
    intro wl s h
    cases wl with
    | nil => rfl
    | cons n rest => simp at h
  | succ k ih =>
    intro wl s h
    cases wl with
    | nil => rfl
    | cons n rest =>
      rw [destroyItems, destroyItems]
      cases hi : s.item? n with
      | none =>
        simp only []
        apply ih
        simp only [List.length_cons] at h
        omega
      | some it =>
        simp only []
        apply ih
        have hc := childCount_set_none s.heap n it (heap_of_item? hi)
        have hd : (destructor s n it).heap = s.heap.set n none := rfl
        simp only [List.length_cons] at h
        simp only [List.length_append, hd]
        omega

/-- Any fuel above the bound used by `destroyNode` gives the result of the bound itself. -/
theorem destroyItems_fuel_enough (extra : Nat) (n : Nat) (s : State) :
    destroyItems (1 + childCount s.heap + extra) [n] s
      = destroyItems (1 + childCount s.heap) [n] s := by
  induction extra with
  | zero => rfl
  | succ k ih =>
    rw [← ih]
    exact destroyItems_fuel_stable (1 + childCount s.heap + k) [n] s (by simp)

theorem item?_destructor_none {s : State} {n m : Nat} {it : BookmarksItem}
    (hm : s.item? m = none) : (destructor s n it).item? m = none := by
  by_cases hmn : n = m
  · subst hmn
    simp only [State.item?, destructor, List.getElem?_set, if_true]
    split <;> rfl
  · simpa [State.item?, destructor, List.getElem?_set, hmn] using hm

theorem item?_destroyItems_none (fuel : Nat) : ∀ (wl : List Nat) (s : State) (m : Nat),
    s.item? m = none → (destroyItems fuel wl s).item? m = none := by
  induction fuel with
  | zero => intro wl s m h; exact h
  | succ k ih =>
    intro wl s m h
    cases wl with
    | nil => exact h
    | cons n rest =>
      rw [destroyItems]
      cases hi : s.item? n with
      | none => exact ih rest s m h
      | some it => exact ih _ _ m (item?_destructor_none h)

/-- The handle passed to `destroyNode` is not live afterwards. -/
theorem item?_destroyNode_self (s : State) (n : Nat) : (destroyNode s n).item? n = none := by
  unfold destroyNode
  cases hi : s.item? n with
  | none => exact hi
  | some it =>
    simp only []
    rw [Nat.add_comm 1, destroyItems]
    cases hd : (detach s n it).item? n with
    | none => exact item?_destroyItems_none _ _ _ _ hd
    | some it' =>
      simp only []
      apply item?_destroyItems_none
      simp only [State.item?, destructor, List.getElem?_set, if_true]
      split <;> rfl

/-! ## The tree search `BookmarksModel::findUrls` -/

theorem collectUrls_eq_walkRows (s : State) (url : String) (visit below : Nat → Option (List Nat))
    (h : ∀ c, visit c = (below c).map (fun l => l.filter (isUrlNode s url))) :
    ∀ rows : List Nat, collectUrls visit s url rows
      = (walkRows below s rows).map (fun l => l.filter (isUrlNode s url)) := by
  intro rows
  induction rows with
  | nil => rfl
  | cons c rest ih =>
    simp only [collectUrls, walkRows]
    cases hc : s.item? c with
    | none => simpa using ih
    | some it =>
      simp only []
      by_cases hf : it.type = .FolderBookmark
      · have hnot : isUrlNode s url c = false := by
          simp [isUrlNode, hc, hf]
        rw [if_pos hf, if_pos hf, h c, ih]
        cases below c with
        | none => rfl
        | some sub =>
          cases walkRows below s rest with
          | none => rfl
          | some items => simp [List.filter_cons, hnot]
      · rw [if_neg hf, if_neg hf, ih]
        by_cases hu : it.type = .UrlBookmark ∧ it.url = url
        · have hyes : isUrlNode s url c = true := by
            simp [isUrlNode, hc, hu.1, hu.2]
          rw [if_pos hu]
          cases walkRows below s rest with
          | none => rfl
          | some items => simp [List.filter_cons, hyes]
        · have hnot : isUrlNode s url c = false := by
            simp only [isUrlNode, hc, decide_eq_false_iff_not]
            exact hu
          rw [if_neg hu]
          cases walkRows below s rest with
          | none => rfl
          | some items => simp [List.filter_cons, hnot]

theorem findUrls_eq_ref (s : State) (root : Nat) (url : String) :
    ∀ (fuel : Nat) (branch : Option Nat),
      findUrls fuel s root url branch = findDescendantsByUrlRef fuel s root url branch := by
  intro fuel
  induction fuel with
  | zero => intro branch; rfl
  | succ k ih =>
    intro branch
    simp only [findUrls, findDescendantsByUrlRef, folderDescendants]
    cases hb : s.item? (branch.getD root) with
    | none => rfl
    | some it =>
      simp only []
      apply collectUrls_eq_walkRows
      intro c
      exact ih (some c)

theorem collectUrls_mono (s : State) (url : String) (visit visit' : Nat → Option (List Nat))
    (h : ∀ c r, visit c = some r → visit' c = some r) :
    ∀ (rows : List Nat) (r : List Nat), collectUrls visit s url rows = some r →
      collectUrls visit' s url rows = some r := by
  intro rows
  induction rows with
  | nil => intro r hr; exact hr
  | cons c rest ih =>
    intro r hr
    simp only [collectUrls] at hr ⊢
    cases hc : s.item? c with
    | none =>
      rw [hc] at hr
      exact ih r hr
    | some it =>
      rw [hc] at hr
      simp only [] at hr ⊢
      by_cases hf : it.type = .FolderBookmark
      · rw [if_pos hf] at hr ⊢
        cases hv : visit c with
        | none => simp [hv] at hr
        | some found =>
          cases hrest : collectUrls visit s url rest with
          | none => simp [hv, hrest] at hr
          | some items =>
            rw [h c found hv, ih items hrest]
            simpa [hv, hrest] using hr
      · rw [if_neg hf] at hr ⊢
        by_cases hu : it.type = .UrlBookmark ∧ it.url = url
        · rw [if_pos hu] at hr ⊢
          cases hrest : collectUrls visit s url rest with
          | none => simp [hrest] at hr
          | some items =>
            rw [ih items hrest]
            simpa [hrest] using hr
        · rw [if_neg hu] at hr ⊢
          exact ih r hr

theorem findUrls_mono (s : State) (root : Nat) (url : String) :
    ∀ (fuel : Nat) (branch : Option Nat) (r : List Nat),
      findUrls fuel s root url branch = some r → findUrls (fuel + 1) s root url branch = some r := by
  intro fuel
  induction fuel with
  | zero => intro branch r h; exact Option.noConfusion h
  | succ k ih =>
    intro branch r h
    rw [findUrls] at h ⊢
    cases hb : s.item? (branch.getD root) with
    | none =>
      rw [hb] at h
      exact h
    | some it =>
      rw [hb] at h
      simp only [] at h ⊢
      exact collectUrls_mono s url _ _ (fun c r' hr' => ih (some c) r' hr') _ r h

theorem rankedTree_spec {s : State} {rank : Nat → Nat} (h : rankedTree s rank = true)
    {p c : Nat} {pit cit : BookmarksItem} (hp : s.item? p = some pit) (hc : c ∈ pit.children)
    (hci : s.item? c = some cit) (hf : cit.type = .FolderBookmark) : rank c < rank p := by
  unfold rankedTree at h
  rw [List.all_eq_true] at h
  have h1 := h p (List.mem_range.2 (item?_lt hp))
  rw [hp] at h1
  simp only [List.all_eq_true] at h1
  have h2 := h1 c hc
  rw [hci] at h2
  simp only [decide_eq_true_eq] at h2
  exact h2 hf

theorem collectUrls_isSome (s : State) (url : String) (visit : Nat → Option (List Nat)) :
    ∀ rows : List Nat,
      (∀ c cit, c ∈ rows → s.item? c = some cit → cit.type = .FolderBookmark →
        ∃ r, visit c = some r) →
      ∃ r, collectUrls visit s url rows = some r := by
  intro rows
  induction rows with
  | nil => intro _; exact ⟨[], rfl⟩
  | cons c rest ih =>
    intro h
    obtain ⟨items, hitems⟩ := ih (fun c' cit hc' => h c' cit (List.mem_cons_of_mem _ hc'))
    simp only [collectUrls]
    cases hc : s.item? c with
    | none => exact ⟨items, hitems⟩
    | some it =>
      simp only []
      by_cases hf : it.type = .FolderBookmark
      · obtain ⟨found, hfound⟩ := h c it (List.mem_cons_self _ _) hc hf
        rw [if_pos hf, hfound, hitems]
        exact ⟨_, rfl⟩
      · rw [if_neg hf, hitems]
        by_cases hu : it.type = .UrlBookmark ∧ it.url = url
        · rw [if_pos hu]
          exact ⟨_, rfl⟩
        · rw [if_neg hu]
          exact ⟨_, rfl⟩

theorem findUrls_terminates {s : State} {rank : Nat → Nat} (h : rankedTree s rank = true)
    (root : Nat) (url : String) :
    ∀ (fuel : Nat) (branch : Option Nat), rank (branch.getD root) < fuel →
      ∃ r, findUrls fuel s root url branch = some r := by
  intro fuel
  induction fuel with
  | zero => intro branch hlt; exact absurd hlt (Nat.not_lt_zero _)
  | succ k ih =>
    intro branch hlt
    rw [findUrls]
    cases hb : s.item? (branch.getD root) with
    | none => exact ⟨[], rfl⟩
    | some it =>
      simp only []
      apply collectUrls_isSome
      intro c cit hc hci hf
      have hr := rankedTree_spec h hb hc hci hf
      exact ih (some c) (by simp only [Option.getD_some]; omega)

/-- Claim C11. For every state, URL text and start branch, `findUrls` returns what the reference
traversal returns (the Url-kind nodes with that URL among the pre-order enumeration of the nodes
reached through Folder-kind children, child rows in stored order), at every recursion bound; a
result once returned stays the same under a larger bound; and on a tree of finite depth (`rank`
decreasing along Folder-kind child rows) every bound above the rank of the start returns. -/
theorem findUrls_eq_reference (s : State) (root : Nat) (url : String) (start : Option Nat) :
    (∀ fuel, findUrls fuel s root url start = findDescendantsByUrlRef fuel s root url start) ∧
    (∀ fuel r, findUrls fuel s root url start = some r →
      findUrls (fuel + 1) s root url start = some r) ∧
    (∀ (rank : Nat → Nat) (fuel : Nat), rankedTree s rank = true →
      rank (start.getD root) < fuel → ∃ r, findUrls fuel s root url start = some r) :=
  ⟨fun fuel => findUrls_eq_ref s root url fuel start,
    fun fuel r h => findUrls_mono s root url fuel start r h,
    fun _ fuel h hlt => findUrls_terminates h root url fuel start hlt⟩

/-- Claim C11 at the tree of the specification: searching `https://x` from the Root returns the
row of FolderA first, then the direct row of the Root. -/
theorem findUrls_eq_reference_witness :
    rankedTree stateExampleTree rankExampleTree = true ∧
    findUrls 3 stateExampleTree 0 "https://x" none = some [2, 4] ∧
    findUrls 4 stateExampleTree 0 "https://x" none = some [2, 4] ∧
    ∃ r, findUrls 3 stateExampleTree 0 "https://x" none = some r :=
  ⟨rfl,
    ((findUrls_eq_reference stateExampleTree 0 "https://x" none).1 3).trans rfl,
    (findUrls_eq_reference stateExampleTree 0 "https://x" none).2.1 3 [2, 4] rfl,
    (findUrls_eq_reference stateExampleTree 0 "https://x" none).2.2 rankExampleTree 3 rfl
      (by decide)⟩

theorem isUrlNode_url {s : State} {url : String} {n : Nat} (h : isUrlNode s url n = true) :
    urlOf s n = some url := by
  unfold isUrlNode at h
  cases hi : s.item? n with
  | none => simp [hi] at h
  | some it =>
    rw [hi] at h
    simp only [decide_eq_true_eq] at h
    simp [urlOf, hi, h.2]

/-- Claim C15, as amended. In every reachable state, for every non-empty URL text `u`, every start
branch and every recursion bound, each node returned by `findUrls` for `u` is a member of
`findNodesByUrl(u)`. -/
theorem findUrls_subset_index {s : State} (hs : Reachable s) (root : Nat) {u : String}
    (hu : u ≠ "") (start : Option Nat) (fuel : Nat) {r : List Nat}
    (h : findUrls fuel s root u start = some r) : ∀ n ∈ r, n ∈ getBookmarks s u := by
  intro n hn
  rw [findUrls_eq_ref, findDescendantsByUrlRef] at h
  cases hd : folderDescendants fuel s (start.getD root) with
  | none => simp [hd] at h
  | some l =>
    rw [hd] at h
    have hr : r = l.filter (isUrlNode s u) := (Option.some.inj h).symm
    rw [hr, List.mem_filter] at hn
    rw [getBookmarks_eq, hs.urlInv.mem_iff]
    exact ⟨hu, isUrlNode_url hn.2⟩

/-- Claim C15, as amended, at the tree of the specification: both nodes found for `https://x` are
in the bucket of `https://x`. -/
theorem findUrls_subset_index_witness :
    Reachable stateExampleTree ∧
    findUrls 3 stateExampleTree 0 "https://x" none = some [2, 4] ∧
    ∀ n ∈ [2, 4], n ∈ getBookmarks stateExampleTree "https://x" :=
  have hr : Reachable stateExampleTree :=
    Reachable.append 0 4 (Reachable.append 1 3 (Reachable.append 1 2 (Reachable.append 0 1
      (Reachable.create .UrlBookmark "https://x" "x2"
        (Reachable.create .UrlBookmark "https://y" "y"
          (Reachable.create .UrlBookmark "https://x" "x1"
            (Reachable.create .FolderBookmark "" "FolderA"
              (Reachable.create .RootBookmark "" "Bookmarks" Reachable.start))))))))
  ⟨hr, rfl, findUrls_subset_index hr 0 (show "https://x" ≠ "" by decide) none 3 rfl⟩

/-- Claim C15 as stated fails for the empty URL text: the Url-kind bookmark `1` with an empty URL
sits under the Root `0`; the tree search for `""` returns it, `findNodesByUrl("")` does not
contain it. -/
theorem findUrls_subset_index_counterexample :
    Reachable stateEmptyUrlTree ∧
    findUrls 2 stateEmptyUrlTree 0 "" none = some [1] ∧
    1 ∉ getBookmarks stateEmptyUrlTree "" := by
  refine ⟨Reachable.append 0 1 (Reachable.create .UrlBookmark "" "no address"
    (Reachable.create .RootBookmark "" "Bookmarks" Reachable.start)), rfl, ?_⟩
  rw [show getBookmarks stateEmptyUrlTree "" = [] from rfl]
  exact List.not_mem_nil 1

/-! ## The constructor accepts every kind -/

theorem item?_alloc (s : State) (blank : BookmarksItem) :
    ({ s with heap := s.heap ++ [some blank] } : State).item? s.heap.length = some blank := by
  simp [State.item?]

theorem createNode_item (s : State) (type : BookmarkType) (url title : String) :
    (createNode s type url title).1.item? (createNode s type url title).2
      = some { type := type, url := url, title := title, description := "", keyword := "",
               parent := none, children := [] } := by
  have h0 := item?_alloc s (blankItem type)
  have h1 := item?_setData_self h0 url .UrlRole
  have h2 := item?_setData_self h1 title .TitleRole
  exact h2

theorem createNode_m_urls (s : State) (type : BookmarkType) (url title : String) :
    (createNode s type url title).1.m_urls = registerUrl s.m_urls url s.heap.length := by
  have h0 := item?_alloc s (blankItem type)
  have h1 := item?_setData_self h0 url .UrlRole
  show (setData (setData ({ s with heap := s.heap ++ [some (blankItem type)] } : State)
    s.heap.length url .UrlRole) s.heap.length title .TitleRole).m_urls = _
  rw [setData_m_urls h1, if_neg (fun h => BookmarksRole.noConfusion h.1), setData_m_urls h0]
  have hb : (blankItem type).url = "" := rfl
  rw [hb]
  by_cases hu : url = ""
  · subst hu
    simp [registerUrl]
  · simp [hu, unregisterUrl]

theorem createNode_m_keywords (s : State) (type : BookmarkType) (url title : String) :
    (createNode s type url title).1.m_keywords = s.m_keywords := by
  have h0 := item?_alloc s (blankItem type)
  have h1 := item?_setData_self h0 url .UrlRole
  show (setData (setData ({ s with heap := s.heap ++ [some (blankItem type)] } : State)
    s.heap.length url .UrlRole) s.heap.length title .TitleRole).m_keywords = _
  rw [setData_m_keywords h1, if_neg (fun h => BookmarksRole.noConfusion h.1),
    setData_m_keywords h0, if_neg (fun h => BookmarksRole.noConfusion h.1)]

/-- Claim C12, as amended. The constructor never rejects a call: for every kind, also Root,
Folder, Separator and Trash, and every non-empty URL, the new item is live with that kind and URL,
the bucket of the URL is its previous contents followed by the new item, and the keyword index is
the one before the call. -/
theorem createNode_any_kind (s : State) (type : BookmarkType) (url title : String)
    (hu : url ≠ "") :
    (∃ it, (createNode s type url title).1.item? (createNode s type url title).2 = some it ∧
      it.type = type ∧ it.url = url) ∧
    getBookmarks (createNode s type url title).1 url
      = getBookmarks s url ++ [(createNode s type url title).2] ∧
    (createNode s type url title).1.m_keywords = s.m_keywords := by
  refine ⟨⟨_, createNode_item s type url title, rfl, rfl⟩, ?_, createNode_m_keywords s type url title⟩
  rw [getBookmarks_eq, getBookmarks_eq, createNode_m_urls, bucket_registerUrl, if_pos ⟨rfl, hu⟩]
  rfl

/-- Claim C12, as amended, at a concrete call: a folder constructed with the URL `http://a` is
indexed under it. -/
theorem createNode_any_kind_witness :
    "http://a" ≠ "" ∧
    getBookmarks stateFolderWithUrl "http://a" = getBookmarks State.init "http://a" ++ [0] ∧
    stateFolderWithUrl.m_keywords = State.init.m_keywords :=
  ⟨by decide,
    (createNode_any_kind State.init .FolderBookmark "http://a" "F" (by decide)).2.1,
    (createNode_any_kind State.init .FolderBookmark "http://a" "F" (by decide)).2.2⟩

/-- Claim C12 as stated fails: the call with kind Folder and URL `http://a` is not rejected; the
folder `0` exists afterwards and the URL index has changed. -/
theorem createNode_any_kind_counterexample :
    (∃ it, stateFolderWithUrl.item? 0 = some it ∧ it.type = .FolderBookmark) ∧
    hasUrl stateFolderWithUrl "http://a" = true ∧
    stateFolderWithUrl.m_urls ≠ State.init.m_urls := by
  refine ⟨⟨_, rfl, rfl⟩, rfl, ?_⟩
  rw [show stateFolderWithUrl.m_urls = [("http://a", [0])] from rfl]
  exact List.cons_ne_nil _ _

/-! ## Existence check against lookup -/

/-- Claim C13. In every reachable state `hasUrl(u)` holds exactly when `findNodesByUrl(u)` is
non-empty (no key keeps an empty bucket), and `findNodesByUrl(u)` is empty when `u` is no key. -/
theorem hasUrl_iff_nonempty {s : State} (hs : Reachable s) (u : String) :
    (hasUrl s u = true ↔ getBookmarks s u ≠ []) ∧
    (hasUrl s u = false → getBookmarks s u = []) := by
  constructor
  · constructor
    · intro hc
      have hc' : s.m_urls.contains u = true := hc
      obtain ⟨b, hb⟩ : ∃ b, s.m_urls.value? u = some b := by
        simpa [QHash.contains, Option.isSome_iff_exists] using hc'
      have hne : b ≠ [] := fun e => hs.urlInv.noEmpty u (e ▸ hb)
      simpa [getBookmarks, hc', hb] using hne
    · intro hne
      by_contra hc
      apply hne
      have hc' : ¬ s.m_urls.contains u = true := hc
      simp [getBookmarks, hc']
  · intro hc
    have hc' : s.m_urls.contains u = false := hc
    simp [getBookmarks, hc']

/-- Claim C13 at a concrete state: `http://a` is a key with a non-empty bucket. -/
theorem hasUrl_iff_nonempty_witness :
    Reachable stateOneUrl ∧
    (hasUrl stateOneUrl "http://a" = true ↔ getBookmarks stateOneUrl "http://a" ≠ []) ∧
    (hasUrl stateOneUrl "http://b" = false → getBookmarks stateOneUrl "http://b" = []) :=
  ⟨Reachable.create .UrlBookmark "http://a" "A" Reachable.start,
    (hasUrl_iff_nonempty (Reachable.create .UrlBookmark "http://a" "A" Reachable.start)
      "http://a").1,
    (hasUrl_iff_nonempty (Reachable.create .UrlBookmark "http://a" "A" Reachable.start)
      "http://b").2⟩

/-! ## The HTML bookmarks importer -/

/-! ## Induction over the element tree of the importer -/

mutual
theorem processElement_rel (toUrl : String → String) (R : Importer → Importer → Prop)
    (hrefl : ∀ st, R st st) (htrans : ∀ a b c, R a b → R b c → R a c)
    (hstep : ∀ st e st', importElement toUrl st e = some st' → R st st')
    (hup : ∀ st, R st st.goToParent) :
    ∀ (el : QWebElement) (st : Importer), R st (processElement toUrl st el)
  | .mk e children, st => by
    rw [processElement]
    cases h : importElement toUrl st e with
    | none => exact hrefl st
    | some st1 =>
      have h1 := hstep st e st1 h
      have h2 := processElements_rel toUrl R hrefl htrans hstep hup children st1
      simp only []
      split
      · exact htrans _ _ _ h1 (htrans _ _ _ h2 (hup _))
      · exact htrans _ _ _ h1 h2
theorem processElements_rel (toUrl : String → String) (R : Importer → Importer → Prop)
    (hrefl : ∀ st, R st st) (htrans : ∀ a b c, R a b → R b c → R a c)
    (hstep : ∀ st e st', importElement toUrl st e = some st' → R st st')
    (hup : ∀ st, R st st.goToParent) :
    ∀ (els : List QWebElement) (st : Importer), R st (processElements toUrl st els)
  | [], st => by
    rw [processElements]
    exact hrefl st
  | el :: rest, st => by
    rw [processElements]
    exact htrans _ _ _ (processElement_rel toUrl R hrefl htrans hstep hup el st)
      (processElements_rel toUrl R hrefl htrans hstep hup rest _)
end

theorem goToParent_bookmarks (st : Importer) : st.goToParent.bookmarks = st.bookmarks := by
  unfold Importer.goToParent
  split
  · rfl
  · split <;> rfl

theorem goToParent_allowDuplicates (st : Importer) :
    st.goToParent.allowDuplicates = st.allowDuplicates := by
  unfold Importer.goToParent
  split
  · rfl
  · split <;> rfl

/-! ## Frame lemmas for the calls made by the importer -/

theorem setData_m_urls_of_ne (s : State) (n : Nat) (v : String) {r : BookmarksRole}
    (hr : r ≠ .UrlRole) : (setData s n v r).m_urls = s.m_urls := by
  cases hi : s.item? n with
  | none => rw [setData_of_none hi]
  | some it => rw [setData_m_urls hi, if_neg (fun h => hr h.1)]

theorem setData_m_keywords_of_ne (s : State) (n : Nat) (v : String) {r : BookmarksRole}
    (hr : r ≠ .KeywordRole) : (setData s n v r).m_keywords = s.m_keywords := by
  cases hi : s.item? n with
  | none => rw [setData_of_none hi]
  | some it => rw [setData_m_keywords hi, if_neg (fun h => hr h.1)]

theorem write_keyword_of_ne (it : BookmarksItem) (v : String) {r : BookmarksRole}
    (hr : r ≠ .KeywordRole) : (it.write v r).keyword = it.keyword := by
  cases r <;> first | rfl | exact absurd rfl hr

theorem keywordOf_setData_of_ne (s : State) (n : Nat) (v : String) {r : BookmarksRole}
    (hr : r ≠ .KeywordRole) (m : Nat) : keywordOf (setData s n v r) m = keywordOf s m := by
  cases hi : s.item? n with
  | none => rw [setData_of_none hi]
  | some it =>
    by_cases hm : m = n
    · subst hm
      simp [keywordOf, item?_setData_self hi, hi, write_keyword_of_ne it v hr]
    · simp [keywordOf, item?_setData_ne s hm]

theorem appendRow_m_urls (s : State) (p c : Nat) : (appendRow s p c).m_urls = s.m_urls := by
  unfold appendRow
  split
  · split <;> rfl
  · rfl

theorem appendRow_m_keywords (s : State) (p c : Nat) :
    (appendRow s p c).m_keywords = s.m_keywords := by
  unfold appendRow
  split
  · split <;> rfl
  · rfl

theorem keywordOf_store (s : State) (p : Nat) (pit pit' : BookmarksItem)
    (hp : s.item? p = some pit) (hk : pit'.keyword = pit.keyword) (m : Nat) :
    keywordOf (s.store p (some pit')) m = keywordOf s m := by
  by_cases hm : m = p
  · subst hm
    simp [keywordOf, item?_store_self _ (item?_lt hp), hp, hk]
  · simp [keywordOf, item?_store_ne s _ hm]

theorem keywordOf_appendRow (s : State) (p c : Nat) (m : Nat) :
    keywordOf (appendRow s p c) m = keywordOf s m := by
  unfold appendRow
  cases hp : s.item? p with
  | none => rfl
  | some pit =>
    cases hc : s.item? c with
    | none => rfl
    | some cit =>
      simp only []
      split
      · rename_i hg
        have hc' : (s.store p (some { pit with children := pit.children ++ [c] })).item? c
            = some cit := by
          rw [item?_store_ne s _ (fun e => hg.2 e.symm), hc]
        rw [keywordOf_store _ c cit _ hc' (by rfl), keywordOf_store s p pit _ hp (by rfl)]
      · rfl

theorem createNode_item?_old {s : State} {n : Nat} {it : BookmarksItem}
    (h : s.item? n = some it) (type : BookmarkType) (url title : String) :
    (createNode s type url title).1.item? n = some it := by
  have hlt := item?_lt h
  have hne : n ≠ s.heap.length := Nat.ne_of_lt hlt
  show (setData (setData ({ s with heap := s.heap ++ [some (blankItem type)] } : State)
    s.heap.length url .UrlRole) s.heap.length title .TitleRole).item? n = some it
  rw [item?_setData_ne _ hne, item?_setData_ne _ hne]
  simpa [State.item?, List.getElem?_append_left hlt] using h

theorem item?_length_none (s : State) : s.item? s.heap.length = none := by
  simp [State.item?, List.getElem?_eq_none (Nat.le_refl _)]

theorem createNode_item?_ne (s : State) {n : Nat} (hne : n ≠ s.heap.length)
    (type : BookmarkType) (url title : String) :
    (createNode s type url title).1.item? n = s.item? n := by
  show (setData (setData ({ s with heap := s.heap ++ [some (blankItem type)] } : State)
    s.heap.length url .UrlRole) s.heap.length title .TitleRole).item? n = s.item? n
  rw [item?_setData_ne _ hne, item?_setData_ne _ hne]
  simp only [State.item?]
  by_cases hlt : n < s.heap.length
  · rw [List.getElem?_append_left hlt]
  · rw [List.getElem?_eq_none, List.getElem?_eq_none]
    · omega
    · simp only [List.length_append, List.length_singleton]
      omega

/-! ## Keywords under the calls made by the importer -/

theorem keywordsIndexed_iff (s : State) :
    KeywordsIndexed s ↔ ∀ n k, keywordOf s n = some k → k ≠ "" → s.m_keywords.value? k = some n := by
  constructor
  · intro h n k hk hne
    cases hi : s.item? n with
    | none => simp [keywordOf, hi] at hk
    | some it =>
      have hk' : it.keyword = k := by simpa [keywordOf, hi] using hk
      rw [← hk', ← getBookmark_eq]
      exact h n it hi (hk' ▸ hne)
  · intro h n it hi hne
    rw [getBookmark_eq]
    exact h n it.keyword (by simp [keywordOf, hi]) hne

theorem keywordsSame_refl (s : State) : KeywordsSame s s := ⟨rfl, fun _ => rfl⟩

theorem keywordsSame_trans {a b c : State} (h1 : KeywordsSame a b) (h2 : KeywordsSame b c) :
    KeywordsSame a c :=
  ⟨h2.1.trans h1.1, fun n => (h2.2 n).trans (h1.2 n)⟩

theorem keywordsSame_setData (s : State) (n : Nat) (v : String) {r : BookmarksRole}
    (hr : r ≠ .KeywordRole) : KeywordsSame s (setData s n v r) :=
  ⟨setData_m_keywords_of_ne s n v hr, keywordOf_setData_of_ne s n v hr⟩

theorem keywordsSame_appendRow (s : State) (p c : Nat) : KeywordsSame s (appendRow s p c) :=
  ⟨appendRow_m_keywords s p c, keywordOf_appendRow s p c⟩

theorem keywordsKept_refl (s : State) : KeywordsKept s s :=
  ⟨fun _ it h => ⟨it, h, rfl⟩, fun _ _ => rfl, fun h => h⟩

theorem hasKeyword_iff (s : State) (k : String) :
    hasKeyword s k = true ↔ ∃ n, s.m_keywords.value? k = some n := by
  simp [hasKeyword, QHash.contains, Option.isSome_iff_exists]

theorem keywordsKept_trans {a b c : State} (h1 : KeywordsKept a b) (h2 : KeywordsKept b c) :
    KeywordsKept a c := by
  refine ⟨fun n it h => ?_, fun k hk => ?_, fun h => h2.2.2 (h1.2.2 h)⟩
  · obtain ⟨it1, hi1, hk1⟩ := h1.1 n it h
    obtain ⟨it2, hi2, hk2⟩ := h2.1 n it1 hi1
    exact ⟨it2, hi2, hk2.trans hk1⟩
  · have e1 := h1.2.1 k hk
    have hk' : hasKeyword b k = true := by
      obtain ⟨n, hn⟩ := (hasKeyword_iff a k).1 hk
      exact (hasKeyword_iff b k).2 ⟨n, e1.trans hn⟩
    exact (h2.2.1 k hk').trans e1

theorem KeywordsKept.of_same {a b : State} (h : KeywordsSame a b) : KeywordsKept a b := by
  refine ⟨fun n it hi => ?_, fun k _ => by rw [h.1], fun hidx => ?_⟩
  · have hk := h.2 n
    simp only [keywordOf, hi, Option.map_some'] at hk
    cases hb : b.item? n with
    | none => simp [hb] at hk
    | some it' =>
      rw [hb] at hk
      exact ⟨it', rfl, Option.some.inj hk⟩
  · rw [keywordsIndexed_iff] at hidx ⊢
    intro n k hk hne
    rw [h.1]
    exact hidx n k ((h.2 n) ▸ hk) hne

theorem keywordsKept_createNode (s : State) (type : BookmarkType) (url title : String) :
    KeywordsKept s (createNode s type url title).1 := by
  refine ⟨fun n it hi => ⟨it, createNode_item?_old hi type url title, rfl⟩,
    fun k _ => by rw [createNode_m_keywords], fun hidx => ?_⟩
  intro n it hi hne
  rw [getBookmark_eq, createNode_m_keywords]
  by_cases hn : n = s.heap.length
  · subst hn
    have hnew := createNode_item s type url title
    have heq : (createNode s type url title).2 = s.heap.length := rfl
    rw [heq, hi] at hnew
    have hit := Option.some.inj hnew
    rw [hit] at hne
    exact absurd rfl hne
  · rw [createNode_item?_ne s hn] at hi
    rw [← getBookmark_eq]
    exact hidx n it hi hne

/-- The assignment `setData(keyword, KeywordRole)` on a fresh item `h` whose keyword is empty,
made when the keyword is no key of the index. -/
theorem keywordsKept_assign {s c : State} (hk : KeywordsKept s c) {h : Nat} {it : BookmarksItem}
    (hfresh : s.item? h = none) (hi : c.item? h = some it) (hempty : it.keyword = "")
    {k : String} (hnot : hasKeyword c k = false) :
    KeywordsKept s (setData c h k .KeywordRole) := by
  by_cases hk0 : k = ""
  · subst hk0
    refine keywordsKept_trans hk (KeywordsKept.of_same ⟨?_, fun n => ?_⟩)
    · rw [setData_m_keywords hi, if_neg (fun hh => hh.2 hempty.symm)]
    · by_cases hn : n = h
      · subst hn
        simp [keywordOf, item?_setData_self hi, hi, BookmarksItem.write, hempty]
      · simp [keywordOf, item?_setData_ne c hn]
  · have hne : k ≠ it.keyword := by rw [hempty]; exact hk0
    have hm : (setData c h k .KeywordRole).m_keywords = c.m_keywords.insert k h := by
      rw [setData_m_keywords hi, if_pos ⟨rfl, hne⟩, if_pos hk0, if_neg (fun hh => hh.1 hempty)]
    have hval : ∀ k', hasKeyword c k' = true →
        (setData c h k .KeywordRole).m_keywords.value? k' = c.m_keywords.value? k' := by
      intro k' hk'
      have hkk : k' ≠ k := by
        rintro rfl
        rw [hnot] at hk'
        exact Bool.noConfusion hk'
      rw [hm, QHash.value?_insert_ne _ _ hkk]
    refine ⟨fun n itn hn => ?_, fun k' hk' => ?_, fun hidx => ?_⟩
    · obtain ⟨it', hi', hk'⟩ := hk.1 n itn hn
      have hnh : n ≠ h := by
        rintro rfl
        rw [hfresh] at hn
        exact Option.noConfusion hn
      exact ⟨it', by rw [item?_setData_ne c hnh, hi'], hk'⟩
    · have e1 := hk.2.1 k' hk'
      have hk'' : hasKeyword c k' = true := by
        obtain ⟨n, hn⟩ := (hasKeyword_iff s k').1 hk'
        exact (hasKeyword_iff c k').2 ⟨n, e1.trans hn⟩
      exact (hval k' hk'').trans e1
    · have hc := hk.2.2 hidx
      intro n itn hn hne'
      rw [getBookmark_eq]
      by_cases hnh : n = h
      · subst hnh
        rw [item?_setData_self hi] at hn
        have : itn.keyword = k := by
          rw [← Option.some.inj hn]
          rfl
        rw [this, hm, QHash.value?_insert_self]
      · rw [item?_setData_ne c hnh] at hn
        have hv := hc n itn hn hne'
        rw [getBookmark_eq] at hv
        rw [hval itn.keyword ((hasKeyword_iff c _).2 ⟨n, hv⟩)]
        exact hv

theorem keywordsSame_ite_setData (c : Prop) [Decidable c] (s : State) (n : Nat) (v : String)
    {r : BookmarksRole} (hr : r ≠ .KeywordRole) :
    KeywordsSame s (if c then setData s n v r else s) := by
  split
  · exact keywordsSame_setData s n v hr
  · exact keywordsSame_refl s

/-- The calls of the `h3` branch after the keyword assignment keep keywords and keyword index. -/
theorem keywordsSame_folderTail (s1 : State) (bookmark folder : Nat) (date : String) :
    KeywordsSame s1 (appendRow (if date ≠ "" then
      setData (setData s1 bookmark date .TimeAddedRole) bookmark date .TimeModifiedRole
      else s1) folder bookmark) := by
  refine keywordsSame_trans ?_ (keywordsSame_appendRow _ _ _)
  split
  · exact keywordsSame_trans (keywordsSame_setData s1 bookmark date (by decide))
      (keywordsSame_setData _ bookmark date (by decide))
  · exact keywordsSame_refl s1

/-- The calls of the `a` branch after the keyword assignment keep keywords and keyword index. -/
theorem keywordsSame_urlTail (s1 : State) (bookmark folder : Nat) (descr : Option String)
    (added modified visited : String) :
    KeywordsSame s1 (appendRow
      (if visited ≠ "" then setData
        (if modified ≠ "" then setData
          (if added ≠ "" then setData
            (match descr with
              | some text => setData s1 bookmark text .DescriptionRole
              | none => s1) bookmark added .TimeAddedRole
           else (match descr with
              | some text => setData s1 bookmark text .DescriptionRole
              | none => s1)) bookmark modified .TimeModifiedRole
         else (if added ≠ "" then setData
            (match descr with
              | some text => setData s1 bookmark text .DescriptionRole
              | none => s1) bookmark added .TimeAddedRole
           else (match descr with
              | some text => setData s1 bookmark text .DescriptionRole
              | none => s1))) bookmark visited .TimeVisitedRole
       else (if modified ≠ "" then setData
          (if added ≠ "" then setData
            (match descr with
              | some text => setData s1 bookmark text .DescriptionRole
              | none => s1) bookmark added .TimeAddedRole
           else (match descr with
              | some text => setData s1 bookmark text .DescriptionRole
              | none => s1)) bookmark modified .TimeModifiedRole
         else (if added ≠ "" then setData
            (match descr with
              | some text => setData s1 bookmark text .DescriptionRole
              | none => s1) bookmark added .TimeAddedRole
           else (match descr with
              | some text => setData s1 bookmark text .DescriptionRole
              | none => s1)))) folder bookmark) := by
  have h2 : KeywordsSame s1 (match descr with
      | some text => setData s1 bookmark text .DescriptionRole
      | none => s1) := by
    cases descr with
    | none => exact keywordsSame_refl s1
    | some text => exact keywordsSame_setData s1 bookmark text (by decide)
  have h3 := keywordsSame_trans h2 (keywordsSame_ite_setData (added ≠ "") _ bookmark added
    (show BookmarksRole.TimeAddedRole ≠ .KeywordRole by decide))
  have h4 := keywordsSame_trans h3 (keywordsSame_ite_setData (modified ≠ "") _ bookmark modified
    (show BookmarksRole.TimeModifiedRole ≠ .KeywordRole by decide))
  have h5 := keywordsSame_trans h4 (keywordsSame_ite_setData (visited ≠ "") _ bookmark visited
    (show BookmarksRole.TimeVisitedRole ≠ .KeywordRole by decide))
  exact keywordsSame_trans h5 (keywordsSame_appendRow _ _ _)

theorem keywordsKept_maybeAssign (s : State) (type : BookmarkType) (url title k : String) :
    KeywordsKept s
      (if !BookmarksManager.hasKeyword (createNode s type url title).1 k
        then setData (createNode s type url title).1 (createNode s type url title).2 k .KeywordRole
        else (createNode s type url title).1) := by
  have hc := keywordsKept_createNode s type url title
  by_cases hk : BookmarksManager.hasKeyword (createNode s type url title).1 k = true
  · simpa [hk] using hc
  · have hk' : hasKeyword (createNode s type url title).1 k = false := by
      simpa [BookmarksManager.hasKeyword] using hk
    have := keywordsKept_assign hc (item?_length_none s) (createNode_item s type url title) rfl hk'
    simpa [hk] using this

theorem importElement_keywordsKept (toUrl : String → String) (st : Importer) (e : ElementData)
    (st' : Importer) (h : importElement toUrl st e = some st') :
    KeywordsKept st.bookmarks st'.bookmarks := by
  unfold importElement at h
  by_cases h3 : e.tagName = "h3"
  · rw [if_pos h3] at h
    rw [← Option.some.inj h]
    exact keywordsKept_trans (keywordsKept_maybeAssign st.bookmarks _ _ _ _)
      (KeywordsKept.of_same (keywordsSame_folderTail _ _ _ _))
  · rw [if_neg h3] at h
    by_cases ha : e.tagName = "a"
    · rw [if_pos ha] at h
      dsimp only at h
      by_cases hd : (!st.allowDuplicates &&
          BookmarksManager.hasBookmark toUrl st.bookmarks (e.attribute "href")) = true
      · rw [if_pos hd] at h
        exact Option.noConfusion h
      · rw [if_neg hd] at h
        rw [← Option.some.inj h]
        exact keywordsKept_trans (keywordsKept_maybeAssign st.bookmarks _ _ _ _)
          (KeywordsKept.of_same (keywordsSame_urlTail _ _ _ _ _ _ _))
    · rw [if_neg ha] at h
      by_cases hr : e.tagName = "hr"
      · rw [if_pos hr] at h
        rw [← Option.some.inj h]
        exact keywordsKept_trans (keywordsKept_createNode st.bookmarks _ _ _)
          (KeywordsKept.of_same (keywordsSame_appendRow _ _ _))
      · rw [if_neg hr] at h
        rw [← Option.some.inj h]
        exact keywordsKept_refl _

theorem importElement_new_node (toUrl : String → String) (st : Importer) (e : ElementData)
    (st' : Importer) (h : importElement toUrl st e = some st')
    (htag : e.tagName = "h3" ∨ e.tagName = "a")
    (hk : hasKeyword st.bookmarks (e.attribute "SHORTCUTURL") = true) :
    keywordOf st'.bookmarks st.bookmarks.heap.length = some "" := by
  have hkc : ∀ type url title, BookmarksManager.hasKeyword
      (createNode st.bookmarks type url title).1 (e.attribute "SHORTCUTURL") = true := by
    intro type url title
    simpa [BookmarksManager.hasKeyword, hasKeyword, createNode_m_keywords] using hk
  have hnew : ∀ type url title,
      keywordOf (createNode st.bookmarks type url title).1 st.bookmarks.heap.length = some "" := by
    intro type url title
    have := createNode_item st.bookmarks type url title
    have heq : (createNode st.bookmarks type url title).2 = st.bookmarks.heap.length := rfl
    rw [heq] at this
    simp [keywordOf, this]
  unfold importElement at h
  by_cases h3 : e.tagName = "h3"
  · rw [if_pos h3] at h
    rw [← Option.some.inj h]
    dsimp only
    rw [hkc]
    simp only [Bool.not_true, Bool.false_eq_true, if_false]
    rw [(keywordsSame_folderTail _ _ _ _).2]
    exact hnew _ _ _
  · rw [if_neg h3] at h
    have ha : e.tagName = "a" := htag.resolve_left h3
    rw [if_pos ha] at h
    dsimp only at h
    by_cases hd : (!st.allowDuplicates &&
        BookmarksManager.hasBookmark toUrl st.bookmarks (e.attribute "href")) = true
    · rw [if_pos hd] at h
      exact Option.noConfusion h
    · rw [if_neg hd] at h
      rw [← Option.some.inj h]
      dsimp only
      rw [hkc]
      simp only [Bool.not_true, Bool.false_eq_true, if_false]
      rw [(keywordsSame_urlTail _ _ _ _ _ _ _).2]
      exact hnew _ _ _

theorem importElement_isSome (toUrl : String → String) (st : Importer) (e : ElementData)
    (h : e.tagName = "h3" ∨ (e.tagName = "a" ∧
      ¬ (!st.allowDuplicates &&
        BookmarksManager.hasBookmark toUrl st.bookmarks (e.attribute "href")) = true)) :
    ∃ st', importElement toUrl st e = some st' := by
  unfold importElement
  by_cases h3 : e.tagName = "h3"
  · rw [if_pos h3]
    exact ⟨_, rfl⟩
  · rw [if_neg h3]
    obtain ⟨ha, hd⟩ := h.resolve_left h3
    rw [if_pos ha]
    dsimp only
    rw [if_neg hd]
    exact ⟨_, rfl⟩

theorem processElement_bookmarks (toUrl : String → String) (st st1 : Importer)
    (e : ElementData) (children : List QWebElement) (h : importElement toUrl st e = some st1) :
    (processElement toUrl st (.mk e children)).bookmarks
      = (processElements toUrl st1 children).bookmarks := by
  rw [processElement, h]
  dsimp only
  split
  · exact goToParent_bookmarks _
  · rfl

theorem processElement_keywordsKept (toUrl : String → String) (el : QWebElement)
    (st : Importer) : KeywordsKept st.bookmarks (processElement toUrl st el).bookmarks :=
  processElement_rel toUrl (fun a b => KeywordsKept a.bookmarks b.bookmarks)
    (fun a => keywordsKept_refl a.bookmarks) (fun _ _ _ h1 h2 => keywordsKept_trans h1 h2)
    (importElement_keywordsKept toUrl)
    (fun a => by
      show KeywordsKept a.bookmarks a.goToParent.bookmarks
      rw [goToParent_bookmarks]
      exact keywordsKept_refl a.bookmarks) el st

theorem processElements_keywordsKept (toUrl : String → String) (els : List QWebElement)
    (st : Importer) : KeywordsKept st.bookmarks (processElements toUrl st els).bookmarks :=
  processElements_rel toUrl (fun a b => KeywordsKept a.bookmarks b.bookmarks)
    (fun a => keywordsKept_refl a.bookmarks) (fun _ _ _ h1 h2 => keywordsKept_trans h1 h2)
    (importElement_keywordsKept toUrl)
    (fun a => by
      show KeywordsKept a.bookmarks a.goToParent.bookmarks
      rw [goToParent_bookmarks]
      exact keywordsKept_refl a.bookmarks) els st

theorem KeywordsIndexed.unique {s : State} (h : KeywordsIndexed s) {n m : Nat}
    {itn itm : BookmarksItem} (hn : s.item? n = some itn) (hm : s.item? m = some itm)
    (hne : itn.keyword ≠ "") (heq : itn.keyword = itm.keyword) : n = m := by
  have h1 := h n itn hn hne
  have h2 := h m itm hm (heq ▸ hne)
  rw [heq, h2] at h1
  exact (Option.some.inj h1).symm

/-- Claim C14. The importer asks `hasKeyword` before it assigns a keyword. When the `SHORTCUTURL`
keyword `k` of an element is already a key of the keyword index, processing the element with all
its child elements leaves the mapping of `k` as it was, and the item created for an `h3` element or
for an `a` element that is not skipped as a duplicate has an empty keyword. When every live item
with a non-empty keyword is the item the index maps that keyword to, the same holds after the
element tree is processed, and no two live items hold the same non-empty keyword. -/
theorem importer_keeps_keywords_unique (toUrl : String → String) (st : Importer)
    (e : ElementData) (children : List QWebElement) :
    (hasKeyword st.bookmarks (e.attribute "SHORTCUTURL") = true →
      getBookmark (processElement toUrl st (.mk e children)).bookmarks
          (e.attribute "SHORTCUTURL")
        = getBookmark st.bookmarks (e.attribute "SHORTCUTURL") ∧
      ((e.tagName = "h3" ∨ (e.tagName = "a" ∧
          ¬ (!st.allowDuplicates &&
            BookmarksManager.hasBookmark toUrl st.bookmarks (e.attribute "href")) = true)) →
        ∃ it, (processElement toUrl st (.mk e children)).bookmarks.item?
            st.bookmarks.heap.length = some it ∧ it.keyword = "")) ∧
    (KeywordsIndexed st.bookmarks →
      KeywordsIndexed (processElement toUrl st (.mk e children)).bookmarks ∧
      ∀ n m itn itm,
        (processElement toUrl st (.mk e children)).bookmarks.item? n = some itn →
        (processElement toUrl st (.mk e children)).bookmarks.item? m = some itm →
        itn.keyword ≠ "" → itn.keyword = itm.keyword → n = m) := by
  have hkept := processElement_keywordsKept toUrl (.mk e children) st
  refine ⟨fun hk => ⟨?_, fun htag => ?_⟩, fun hidx => ?_⟩
  · rw [getBookmark_eq, getBookmark_eq]
    exact hkept.2.1 _ hk
  · obtain ⟨st1, h1⟩ := importElement_isSome toUrl st e htag
    have hnew := importElement_new_node toUrl st e st1 h1
      (htag.elim Or.inl (fun h => Or.inr h.1)) hk
    rw [processElement_bookmarks toUrl st st1 e children h1]
    cases hi : st1.bookmarks.item? st.bookmarks.heap.length with
    | none => simp [keywordOf, hi] at hnew
    | some it1 =>
      have hk1 : it1.keyword = "" := by simpa [keywordOf, hi] using hnew
      obtain ⟨it', hi', hk'⟩ := (processElements_keywordsKept toUrl children st1).1 _ it1 hi
      exact ⟨it', hi', hk'.trans hk1⟩
  · have hidx' := hkept.2.2 hidx
    exact ⟨hidx', fun n m itn itm hn hm hne heq => hidx'.unique hn hm hne heq⟩

theorem keywordsIndexed_of_check {s : State} (h : keywordsIndexedCheck s = true) :
    KeywordsIndexed s := by
  intro n it hi hne
  unfold keywordsIndexedCheck at h
  rw [List.all_eq_true] at h
  have h1 := h n (List.mem_range.2 (item?_lt hi))
  rw [hi] at h1
  simpa [hne] using h1

/-- Claim C14 at a concrete import: the keyword `k` is held by bookmark `1`; the anchor with
`SHORTCUTURL="k"` becomes bookmark `2` with an empty keyword, `k` still maps to `1`, and no two
items share a keyword afterwards. -/
theorem importer_keeps_keywords_unique_witness :
    hasKeyword importerWithKeyword.bookmarks "k" = true ∧
    KeywordsIndexed importerWithKeyword.bookmarks ∧
    getBookmark (processElement id importerWithKeyword (.mk anchorSameKeyword [])).bookmarks "k"
      = some 1 ∧
    (∃ it, (processElement id importerWithKeyword (.mk anchorSameKeyword [])).bookmarks.item? 2
      = some it ∧ it.keyword = "") ∧
    KeywordsIndexed (processElement id importerWithKeyword (.mk anchorSameKeyword [])).bookmarks :=
  have h := importer_keeps_keywords_unique id importerWithKeyword anchorSameKeyword []
  ⟨rfl, keywordsIndexed_of_check rfl, (h.1 rfl).1.trans rfl,
    (h.1 rfl).2 (Or.inr ⟨rfl, by decide⟩),
    (h.2 (keywordsIndexed_of_check rfl)).1⟩

/-! ## Duplicate suppression of the importer -/

theorem bucketsKept_refl (st : Importer) : BucketsKept st st := ⟨rfl, fun _ _ _ => rfl⟩

theorem bucketsKept_trans {a b c : Importer} (h1 : BucketsKept a b) (h2 : BucketsKept b c) :
    BucketsKept a c := by
  refine ⟨h2.1.trans h1.1, fun ha u hu => ?_⟩
  have e1 := h1.2 ha u hu
  have e2 := h2.2 (h1.1.trans ha) u (by rw [e1]; exact hu)
  exact e2.trans e1

theorem m_urls_ite_setData (c : Prop) [Decidable c] (s : State) (n : Nat) (v : String)
    {r : BookmarksRole} (hr : r ≠ .UrlRole) :
    (if c then setData s n v r else s).m_urls = s.m_urls := by
  split
  · exact setData_m_urls_of_ne s n v hr
  · rfl

theorem m_urls_maybeAssign (c : State) (h : Nat) (k : String) :
    (if !BookmarksManager.hasKeyword c k then setData c h k .KeywordRole else c).m_urls
      = c.m_urls := by
  split
  · exact setData_m_urls_of_ne c h k (by decide)
  · rfl

theorem importElement_m_urls (toUrl : String → String) (st : Importer) (e : ElementData)
    (st' : Importer) (h : importElement toUrl st e = some st') :
    st'.allowDuplicates = st.allowDuplicates ∧
    (st'.bookmarks.m_urls = st.bookmarks.m_urls ∨
      ((st.allowDuplicates = false →
          st.bookmarks.m_urls.contains (toUrl (e.attribute "href")) = false) ∧
        st'.bookmarks.m_urls = registerUrl st.bookmarks.m_urls (toUrl (e.attribute "href"))
          st.bookmarks.heap.length)) := by
  unfold importElement at h
  by_cases h3 : e.tagName = "h3"
  · rw [if_pos h3] at h
    rw [← Option.some.inj h]
    refine ⟨rfl, Or.inl ?_⟩
    dsimp only
    rw [appendRow_m_urls]
    have hdate : ∀ (s1 : State) (b : Nat) (d : String),
        (if d ≠ "" then setData (setData s1 b d .TimeAddedRole) b d .TimeModifiedRole
          else s1).m_urls = s1.m_urls := by
      intro s1 b d
      split
      · rw [setData_m_urls_of_ne _ _ _ (by decide), setData_m_urls_of_ne _ _ _ (by decide)]
      · rfl
    rw [hdate, m_urls_maybeAssign, createNode_m_urls]
    simp [registerUrl]
  · rw [if_neg h3] at h
    by_cases ha : e.tagName = "a"
    · rw [if_pos ha] at h
      dsimp only at h
      by_cases hd : (!st.allowDuplicates &&
          BookmarksManager.hasBookmark toUrl st.bookmarks (e.attribute "href")) = true
      · rw [if_pos hd] at h
        exact Option.noConfusion h
      · rw [if_neg hd] at h
        rw [← Option.some.inj h]
        refine ⟨rfl, Or.inr ⟨fun hallow => ?_, ?_⟩⟩
        · simpa [hallow, BookmarksManager.hasBookmark, hasBookmark] using hd
        · dsimp only
          rw [appendRow_m_urls, m_urls_ite_setData _ _ _ _ (by decide),
            m_urls_ite_setData _ _ _ _ (by decide), m_urls_ite_setData _ _ _ _ (by decide)]
          have hdescr : ∀ (s1 : State) (b : Nat) (d : Option String),
              (match d with
                | some text => setData s1 b text .DescriptionRole
                | none => s1).m_urls = s1.m_urls := by
            intro s1 b d
            cases d with
            | none => rfl
            | some text => exact setData_m_urls_of_ne _ _ _ (by decide)
          rw [hdescr, m_urls_maybeAssign, createNode_m_urls]
    · rw [if_neg ha] at h
      by_cases hr : e.tagName = "hr"
      · rw [if_pos hr] at h
        rw [← Option.some.inj h]
        refine ⟨rfl, Or.inl ?_⟩
        dsimp only
        rw [appendRow_m_urls, createNode_m_urls]
        simp [registerUrl]
      · rw [if_neg hr] at h
        rw [← Option.some.inj h]
        exact ⟨rfl, Or.inl rfl⟩

theorem importElement_bucketsKept (toUrl : String → String) (st : Importer) (e : ElementData)
    (st' : Importer) (h : importElement toUrl st e = some st') : BucketsKept st st' := by
  obtain ⟨hallow, hurls⟩ := importElement_m_urls toUrl st e st' h
  refine ⟨hallow, fun ha u hu => ?_⟩
  rw [getBookmarks_eq, getBookmarks_eq]
  rcases hurls with hsame | ⟨hnot, hreg⟩
  · rw [hsame]
  · rw [hreg, bucket_registerUrl]
    have hne : ¬ (u = toUrl (e.attribute "href") ∧ toUrl (e.attribute "href") ≠ "") := by
      rintro ⟨rfl, _⟩
      apply hu
      have hc := hnot ha
      simp [getBookmarks, hc]
    rw [if_neg hne]

theorem processElement_bucketsKept (toUrl : String → String) (el : QWebElement)
    (st : Importer) : BucketsKept st (processElement toUrl st el) :=
  processElement_rel toUrl BucketsKept bucketsKept_refl (fun _ _ _ h1 h2 => bucketsKept_trans h1 h2)
    (importElement_bucketsKept toUrl)
    (fun a => ⟨goToParent_allowDuplicates a, fun _ u _ => by rw [goToParent_bookmarks]⟩) el st

/-- Claim C19. With duplicates disallowed, an `a` element whose `href`, in canonical URL text
form, is a key of the URL index makes `processElement` return at once: the importer state, and
with it the two indexes, the items and the child rows of the current folder, is the one before the
call. Hence processing any element tree with duplicates disallowed leaves every bucket that was
non-empty exactly as it was. -/
theorem importer_skips_duplicates (toUrl : String → String) (st : Importer) (e : ElementData)
    (children : List QWebElement) (hallow : st.allowDuplicates = false) :
    (e.tagName = "a" → hasUrl st.bookmarks (toUrl (e.attribute "href")) = true →
      processElement toUrl st (.mk e children) = st) ∧
    (∀ u, getBookmarks st.bookmarks u ≠ [] →
      getBookmarks (processElement toUrl st (.mk e children)).bookmarks u
        = getBookmarks st.bookmarks u) := by
  constructor
  · intro ha hkey
    have h3 : ¬ e.tagName = "h3" := by
      rw [ha]
      decide
    have hnone : importElement toUrl st e = none := by
      unfold importElement
      rw [if_neg h3, if_pos ha]
      dsimp only
      have hc : (!st.allowDuplicates &&
          BookmarksManager.hasBookmark toUrl st.bookmarks (e.attribute "href")) = true := by
        have hk : st.bookmarks.m_urls.contains (toUrl (e.attribute "href")) = true := hkey
        simp [hallow, BookmarksManager.hasBookmark, hasBookmark, hk]
      rw [if_pos hc]
    rw [processElement, hnone]
  · exact (processElement_bucketsKept toUrl (.mk e children) st).2 hallow

/-- Claim C19 at a concrete import: `http://a` is a key; the anchor with that `href` changes
nothing, and the bucket of `http://a` is the same after a whole document with two more anchors
for `http://a` is processed. -/
theorem importer_skips_duplicates_witness :
    importerWithKeyword.allowDuplicates = false ∧
    hasUrl importerWithKeyword.bookmarks "http://a" = true ∧
    processElement id importerWithKeyword (.mk anchorSameUrl []) = importerWithKeyword ∧
    getBookmarks (processElement id importerWithKeyword (.mk documentList documentRows)).bookmarks
      "http://a" = [1] :=
  ⟨rfl, rfl,
    (importer_skips_duplicates id importerWithKeyword anchorSameUrl [] rfl).1 rfl rfl,
    ((importer_skips_duplicates id importerWithKeyword documentList documentRows rfl).2
      "http://a" (by
        rw [show getBookmarks importerWithKeyword.bookmarks "http://a" = [1] from rfl]
        exact List.cons_ne_nil _ _)).trans rfl⟩

/-! ## The view widget `ItemViewWidget` -/

/-! ## Moving a row of the view -/

theorem getD_append_length {α : Type} (l1 : List α) (a : α) (r : List α) (d : α) :
    (l1 ++ a :: r).getD l1.length d = a := by
  induction l1 with
  | nil => rfl
  | cons x l ih => simpa using ih

theorem eraseIdx_append_length {α : Type} (l1 : List α) (a : α) (r : List α) :
    (l1 ++ a :: r).eraseIdx l1.length = l1 ++ r := by
  induction l1 with
  | nil => rfl
  | cons x l ih => simpa using ih

theorem insertAt_append_length {α : Type} (l1 : List α) (x : α) (r : List α) :
    insertAt (l1 ++ r) l1.length x = l1 ++ x :: r := by
  induction l1 with
  | nil => cases r <;> rfl
  | cons y l ih => simpa [insertAt] using ih

theorem moveRow_up_append {α : Type} [Inhabited α] (l1 : List α) (a b : α) (l2 : List α)
    (m : Bool) :
    moveRow { m_model := some (l1 ++ a :: b :: l2), currentRow := (l1.length : Int) + 1,
              m_isModified := m } true
      = { m_model := some (l1 ++ b :: a :: l2), currentRow := l1.length, m_isModified := true } := by
  have hcond : ((true = true ∧ ((l1.length : Int) + 1) > 0) ∨
      (true = false ∧ ((l1.length : Int) + 1) < ((l1 ++ a :: b :: l2).length : Int) - 1)) :=
    Or.inl ⟨rfl, by omega⟩
  have htake : takeRow (l1 ++ a :: b :: l2) ((l1.length : Int) + 1 - 1)
      = (a, l1 ++ b :: l2) := by
    have hr : 0 ≤ ((l1.length : Int) + 1 - 1) ∧
        ((l1.length : Int) + 1 - 1) < ((l1 ++ a :: b :: l2).length : Int) := by
      simp only [List.length_append, List.length_cons]
      omega
    have hn : ((l1.length : Int) + 1 - 1).toNat = l1.length := by omega
    simp only [takeRow, hr, and_self, if_true, hn, getD_append_length, eraseIdx_append_length]
  have hins : insertRow (l1 ++ b :: l2) ((l1.length : Int) + 1) a = l1 ++ b :: a :: l2 := by
    have hr : 0 ≤ ((l1.length : Int) + 1) ∧
        ((l1.length : Int) + 1) ≤ ((l1 ++ b :: l2).length : Int) := by
      simp only [List.length_append, List.length_cons]
      omega
    have hn : ((l1.length : Int) + 1).toNat = (l1 ++ [b]).length := by
      simp only [List.length_append, List.length_singleton]
      omega
    have h1 : l1 ++ b :: l2 = (l1 ++ [b]) ++ l2 := by simp
    have h2 : l1 ++ b :: a :: l2 = (l1 ++ [b]) ++ a :: l2 := by simp
    simp only [insertRow, hr, and_self, if_true, hn]
    rw [h1, h2]
    exact insertAt_append_length (l1 ++ [b]) a l2
  simp only [moveRow, if_true, hcond, htake, hins]
  simp

theorem moveRow_down_append {α : Type} [Inhabited α] (l1 : List α) (a b : α) (l2 : List α)
    (m : Bool) :
    moveRow { m_model := some (l1 ++ a :: b :: l2), currentRow := (l1.length : Int),
              m_isModified := m } false
      = { m_model := some (l1 ++ b :: a :: l2), currentRow := (l1.length : Int) + 1,
          m_isModified := true } := by
  have hcond : ((false = true ∧ (l1.length : Int) > 0) ∨
      (false = false ∧ (l1.length : Int) < ((l1 ++ a :: b :: l2).length : Int) - 1)) := by
    refine Or.inr ⟨rfl, ?_⟩
    simp only [List.length_append, List.length_cons]
    omega
  have htake : takeRow (l1 ++ a :: b :: l2) ((l1.length : Int) + 1) = (b, l1 ++ a :: l2) := by
    have hr : 0 ≤ ((l1.length : Int) + 1) ∧
        ((l1.length : Int) + 1) < ((l1 ++ a :: b :: l2).length : Int) := by
      simp only [List.length_append, List.length_cons]
      omega
    have hn : ((l1.length : Int) + 1).toNat = (l1 ++ [a]).length := by
      simp only [List.length_append, List.length_singleton]
      omega
    have h1 : l1 ++ a :: b :: l2 = (l1 ++ [a]) ++ b :: l2 := by simp
    have h2 : l1 ++ a :: l2 = (l1 ++ [a]) ++ l2 := by simp
    simp only [takeRow, hr, and_self, if_true, hn]
    rw [h1, h2, getD_append_length, eraseIdx_append_length]
  have hins : insertRow (l1 ++ a :: l2) (l1.length : Int) b = l1 ++ b :: a :: l2 := by
    have hr : 0 ≤ (l1.length : Int) ∧ (l1.length : Int) ≤ ((l1 ++ a :: l2).length : Int) := by
      simp only [List.length_append, List.length_cons]
      omega
    have hn : (l1.length : Int).toNat = l1.length := by omega
    simp only [insertRow, hr, and_self, if_true, hn]
    exact insertAt_append_length l1 b (a :: l2)
  unfold moveRow
  dsimp only
  rw [if_pos hcond]
  simp only [Bool.false_eq_true, if_false, htake, hins]

theorem exists_adjacent {α : Type} : ∀ (rows : List α) (i : Nat), i + 1 < rows.length →
    ∃ l1 a b l2, rows = l1 ++ a :: b :: l2 ∧ l1.length = i
  | [], _, h => by simp at h
  | [_], _, h => by simp at h
  | x :: y :: t, 0, _ => ⟨[], x, y, t, rfl, rfl⟩
  | x :: y :: t, i + 1, h => by
    have h' : i + 1 < (y :: t).length := by
      simp only [List.length_cons] at h ⊢
      omega
    obtain ⟨l1, a, b, l2, he, hl⟩ := exists_adjacent (y :: t) i h'
    exact ⟨x :: l1, a, b, l2, by rw [he]; rfl, by simp [hl]⟩

theorem getElem?_swapped {α : Type} (a b : α) (l2 : List α) : ∀ (l1 : List α) (k : Nat),
    (l1 ++ b :: a :: l2)[k]?
      = if k = l1.length then some b else if k = l1.length + 1 then some a
        else (l1 ++ a :: b :: l2)[k]?
  | [], 0 => by simp
  | [], 1 => by simp
  | [], k + 2 => by simp
  | x :: l, 0 => by simp
  | x :: l, k + 1 => by
    have ih := getElem?_swapped a b l2 l k
    simpa using ih

theorem getElem?_adjacent {α : Type} (a b : α) (l2 : List α) (l1 : List α) :
    (l1 ++ a :: b :: l2)[l1.length]? = some a ∧
    (l1 ++ a :: b :: l2)[l1.length + 1]? = some b := by
  induction l1 with
  | nil => simp
  | cons x l ih => simpa using ih

/-- Claim C16. For a model with rows `rows` and the current row `s` in range: `moveRow(up)` with
`s > 0` exchanges the rows `s - 1` and `s`, `moveRow(down)` with `s + 1 < n` exchanges the rows
`s` and `s + 1`; every other row keeps its position and the row count is the same. At `s = 0` a
move up, and at `s = n - 1` a move down, leaves the widget as it is. -/
theorem moveRow_swaps_adjacent {α : Type} [Inhabited α] (rows : List α) (s : Nat)
    (hs : s < rows.length) (m : Bool) :
    (0 < s → ∃ rows', moveRow { m_model := some rows, currentRow := s, m_isModified := m } true
        = { m_model := some rows', currentRow := (s : Int) - 1, m_isModified := true } ∧
      rows'.length = rows.length ∧ rows'[s - 1]? = rows[s]? ∧ rows'[s]? = rows[s - 1]? ∧
      ∀ k, k ≠ s - 1 → k ≠ s → rows'[k]? = rows[k]?) ∧
    (s + 1 < rows.length →
      ∃ rows', moveRow { m_model := some rows, currentRow := s, m_isModified := m } false
        = { m_model := some rows', currentRow := (s : Int) + 1, m_isModified := true } ∧
      rows'.length = rows.length ∧ rows'[s]? = rows[s + 1]? ∧ rows'[s + 1]? = rows[s]? ∧
      ∀ k, k ≠ s → k ≠ s + 1 → rows'[k]? = rows[k]?) ∧
    (s = 0 → moveRow { m_model := some rows, currentRow := s, m_isModified := m } true
        = { m_model := some rows, currentRow := s, m_isModified := m }) ∧
    (s + 1 = rows.length →
      moveRow { m_model := some rows, currentRow := s, m_isModified := m } false
        = { m_model := some rows, currentRow := s, m_isModified := m }) := by
  refine ⟨fun h0 => ?_, fun h1 => ?_, fun h0 => ?_, fun h1 => ?_⟩
  · obtain ⟨l1, a, b, l2, he, hl⟩ := exists_adjacent rows (s - 1) (by omega)
    have hs' : s = l1.length + 1 := by omega
    subst he
    subst hs'
    refine ⟨l1 ++ b :: a :: l2, ?_, by simp, ?_, ?_, fun k hk1 hk2 => ?_⟩
    · have := moveRow_up_append l1 a b l2 m
      simpa using this
    · rw [getElem?_swapped, (getElem?_adjacent a b l2 l1).2]
      simp
    · rw [getElem?_swapped, if_neg (by omega), if_pos rfl]
      simpa using (getElem?_adjacent a b l2 l1).1.symm
    · rw [getElem?_swapped, if_neg (by omega), if_neg hk2]
  · obtain ⟨l1, a, b, l2, he, hl⟩ := exists_adjacent rows s h1
    subst he
    subst hl
    refine ⟨l1 ++ b :: a :: l2, moveRow_down_append l1 a b l2 m, by simp, ?_, ?_,
      fun k hk1 hk2 => ?_⟩
    · rw [getElem?_swapped, if_pos rfl, (getElem?_adjacent a b l2 l1).2]
    · rw [getElem?_swapped, if_neg (by omega), if_pos rfl, (getElem?_adjacent a b l2 l1).1]
    · rw [getElem?_swapped, if_neg hk1, if_neg hk2]
  · subst h0
    simp [moveRow]
  · have hc : ¬ ((false = true ∧ (s : Int) > 0) ∨
        (false = false ∧ (s : Int) < (rows.length : Int) - 1)) := by
      rintro (⟨h, _⟩ | ⟨_, h⟩)
      · exact Bool.noConfusion h
      · omega
    unfold moveRow
    dsimp only
    rw [if_neg hc]

/-- Claim C16 at a concrete model: the rows `a b c d` with the current row `2`. -/
theorem moveRow_swaps_adjacent_witness :
    (moveRow { m_model := some ["a", "b", "c", "d"], currentRow := 2, m_isModified := false }
      true).m_model = some ["a", "c", "b", "d"] ∧
    (moveRow { m_model := some ["a", "b", "c", "d"], currentRow := 2, m_isModified := false }
      false).m_model = some ["a", "b", "d", "c"] ∧
    (moveRow { m_model := some ["a", "b", "c", "d"], currentRow := 3, m_isModified := false }
      false).m_model = some ["a", "b", "c", "d"] := by
  have h := moveRow_swaps_adjacent ["a", "b", "c", "d"] 2 (by decide) false
  have h3 := (moveRow_swaps_adjacent ["a", "b", "c", "d"] 3 (by decide) false).2.2.2 rfl
  refine ⟨?_, ?_, ?_⟩
  · obtain ⟨rows', he, _⟩ := h.1 (by decide)
    rw [show ((2 : Nat) : Int) = 2 from rfl] at he
    rw [he]
    exact (congrArg ItemViewWidget.m_model he).symm.trans rfl
  · obtain ⟨rows', he, _⟩ := h.2.1 (by decide)
    rw [show ((2 : Nat) : Int) = 2 from rfl] at he
    rw [he]
    exact (congrArg ItemViewWidget.m_model he).symm.trans rfl
  · rw [show ((3 : Nat) : Int) = 3 from rfl] at h3
    rw [h3]

/-! ## The stored sort order -/

theorem checkedInt_of_range {x : Int} (h1 : -2147483648 ≤ x) (h2 : x ≤ 2147483647) :
    checkedInt x = some x := by
  unfold checkedInt
  rw [if_pos ⟨h1, h2⟩]

/-- Claim C17, as amended. For every sort column `c` with `0 ≤ c < 2147483647` (so that `c + 1`
is an `int`) and every sort order `o`, `saveState` stores `(c + 1) * (+1 or -1)` and `showEvent` decodes the stored
value back to the column `c` and the order `o`. For the unsorted state `c = -1` the stored value
is `0` and the decoded column is `-1`. -/
theorem sort_state_round_trip (o : SortOrder) :
    (∀ c : Int, 0 ≤ c → c < 2147483647 →
      saveStateOrder c o = some ((c + 1) * (if o = .AscendingOrder then 1 else -1)) ∧
      (saveStateOrder c o).bind showEventSorting = some (c, o)) ∧
    saveStateOrder (-1) o = some 0 ∧
    (showEventSorting 0).map Prod.fst = some (-1) := by
  refine ⟨fun c h0 h1 => ?_, ?_, ?_⟩
  · have hs : saveStateOrder c o
        = some ((c + 1) * (if o = .AscendingOrder then 1 else -1)) := by
      unfold saveStateOrder
      rw [checkedInt_of_range (by omega) (by omega)]
      simp only [Option.some_bind]
      cases o
      · simp only [if_true]
        exact checkedInt_of_range (by omega) (by omega)
      · simp only [reduceCtorEq, if_false]
        exact checkedInt_of_range (by omega) (by omega)
    refine ⟨hs, ?_⟩
    rw [hs]
    simp only [Option.some_bind]
    cases o
    · simp only [if_true, mul_one]
      unfold showEventSorting qAbs
      rw [if_pos (by omega), checkedInt_of_range (by omega) (by omega)]
      simp only [Option.some_bind]
      rw [checkedInt_of_range (by omega) (by omega)]
      simp only [Option.map_some', add_sub_cancel_right]
      rw [if_pos (by omega)]
    · simp only [reduceCtorEq, if_false]
      unfold showEventSorting qAbs
      rw [if_neg (by omega), checkedInt_of_range (by omega) (by omega)]
      simp only [Option.some_bind]
      rw [checkedInt_of_range (by omega) (by omega)]
      simp only [Option.map_some']
      rw [if_neg (by omega)]
      congr 2
      omega
  · cases o <;> rfl
  · rfl

/-- At the largest `int` column the expression `m_sortColumn + 1` of `saveState` overflows. -/
theorem saveStateOrder_overflow (o : SortOrder) : saveStateOrder 2147483647 o = none := by
  cases o <;> rfl

/-- Claim C17 as stated fails at the largest `int` column: for `c = 2147483647`, which is `≥ 0`,
the expression `m_sortColumn + 1` of `saveState` overflows, no value is stored, and the round trip
does not give back the column with the ascending order. -/
theorem sort_state_round_trip_counterexample :
    (0 : Int) ≤ 2147483647 ∧
    saveStateOrder 2147483647 .AscendingOrder = none ∧
    (saveStateOrder 2147483647 .AscendingOrder).bind showEventSorting
      ≠ some (2147483647, .AscendingOrder) := by
  refine ⟨by decide, rfl, ?_⟩
  rw [show (saveStateOrder 2147483647 .AscendingOrder).bind showEventSorting = none from rfl]
  exact fun h => Option.noConfusion h

/-- Claim C17, as amended, at concrete values: column `2` ascending is stored as `3`, column `2` descending as
`-3`, and both are decoded back. -/
theorem sort_state_round_trip_witness :
    saveStateOrder 2 .AscendingOrder = some 3 ∧
    showEventSorting 3 = some (2, .AscendingOrder) ∧
    saveStateOrder 2 .DescendingOrder = some (-3) ∧
    (saveStateOrder 2 .DescendingOrder).bind showEventSorting = some (2, .DescendingOrder) :=
  ⟨((sort_state_round_trip .AscendingOrder).1 2 (by decide) (by decide)).1,
    ((sort_state_round_trip .AscendingOrder).1 2 (by decide) (by decide)).2,
    ((sort_state_round_trip .DescendingOrder).1 2 (by decide) (by decide)).1,
    ((sort_state_round_trip .DescendingOrder).1 2 (by decide) (by decide)).2⟩

/-! ## The filter of the view widget -/

/-! ## The visibility rule of the filter -/

theorem applyFilterRows_fst (contains : String → String → Bool) (filter : String) :
    ∀ rows : List ViewItem, (applyFilterRows contains filter rows).1
      = rows.any (fun child => (applyFilter contains filter child).1)
  | [] => by rw [applyFilterRows]; rfl
  | child :: rest => by
    rw [applyFilterRows, List.any_cons, ← applyFilterRows_fst contains filter rest]

theorem applyFilter_fst (contains : String → String → Bool) (filter : String) (item : ViewItem) :
    (applyFilter contains filter item).1
      = (decide (filter = "") ||
          (if item.neverHasChildren then
            item.cells.any (fun roles => roles.any (fun text => contains text filter))
           else item.children.any (fun child => (applyFilter contains filter child).1))) := by
  cases item with
  | mk row never cells children =>
    rw [applyFilter]
    cases never
    · simp [ViewItem.neverHasChildren, ViewItem.children, applyFilterRows_fst]
    · simp [ViewItem.neverHasChildren, ViewItem.cells]

mutual
theorem applyFilter_snd (contains : String → String → Bool) (filter : String) :
    ∀ item : ViewItem, (applyFilter contains filter item).2
      = (visitedItems item).map (fun v => (v.row, !(applyFilter contains filter v).1))
  | .mk row never cells children => by
    have ih := applyFilterRows_snd contains filter children
    rw [visitedItems, List.map_append, List.map_singleton]
    cases never
    · rw [applyFilter]
      simp only [Bool.not_false, if_true, Bool.false_eq_true, if_false]
      rw [ih]
      simp [ViewItem.row, applyFilter]
    · rw [applyFilter]
      simp [ViewItem.row, applyFilter]
theorem applyFilterRows_snd (contains : String → String → Bool) (filter : String) :
    ∀ rows : List ViewItem, (applyFilterRows contains filter rows).2
      = (visitedRows rows).map (fun v => (v.row, !(applyFilter contains filter v).1))
  | [] => by rw [applyFilterRows, visitedRows]; rfl
  | child :: rest => by
    rw [applyFilterRows, visitedRows, List.map_append,
      ← applyFilter_snd contains filter child, ← applyFilterRows_snd contains filter rest]
end

/-- Claim C18. For every item tree and filter string, `applyFilter(item)` returns true exactly
when the filter string is empty, or the item never has children and some text of a filter role in
some column of its row contains the filter string, or the item is a folder and `applyFilter`
returns true for one of its child rows. The calls of `setRowHidden` are one per visited item, with
`hide` the negation of the result for that item; with an empty filter no row is hidden. -/
theorem applyFilter_visibility (contains : String → String → Bool) (filter : String)
    (item : ViewItem) :
    ((applyFilter contains filter item).1 = true ↔
      (filter = "" ∨
        (item.neverHasChildren = true ∧
          ∃ roles ∈ item.cells, ∃ text ∈ roles, contains text filter = true) ∨
        (item.neverHasChildren = false ∧
          ∃ child ∈ item.children, (applyFilter contains filter child).1 = true))) ∧
    (applyFilter contains filter item).2
      = (visitedItems item).map (fun v => (v.row, !(applyFilter contains filter v).1)) ∧
    (filter = "" → ∀ p ∈ (applyFilter contains filter item).2, p.2 = false) := by
  refine ⟨?_, applyFilter_snd contains filter item, fun hf p hp => ?_⟩
  · rw [applyFilter_fst]
    cases hn : item.neverHasChildren <;> simp
  · rw [applyFilter_snd, List.mem_map] at hp
    obtain ⟨v, _, hv⟩ := hp
    rw [← hv, applyFilter_fst]
    simp [hf]

/-- Claim C18 at a concrete tree: with the filter `et` only the leaf `beta` matches, so its row
and the rows of the folders above it stay visible and the other leaves are hidden; with the empty
filter nothing is hidden. -/
theorem applyFilter_visibility_witness :
    applyFilter containsText "et" viewExample
      = (true, [(1, true), (3, false), (2, false), (4, true), (0, false)]) ∧
    (∀ p ∈ (applyFilter containsText "" viewExample).2, p.2 = false) :=
  ⟨Prod.ext (by rfl) (((applyFilter_visibility containsText "et" viewExample).2.1).trans rfl),
    (applyFilter_visibility containsText "" viewExample).2.2 rfl⟩

end Otter
